import Mathlib

/-!
# dotenv: a verification development for `pkg/dotenv.go`

Shallow embedding of the Go package `dotenv` (`Load`, `Parser`, `loadFile`,
`Unmarshal`) together with the parts of the Go standard library it calls
(`strings.TrimSpace`, `strings.ContainsAny`, `strings.SplitN`, `strings.Index`,
`bufio.Scanner` with the default `ScanLines` split function, `os.Setenv`).

Modelling conventions.

* A Go `string` is a `List Char`: the embedding covers inputs that are valid
  UTF-8.  Lengths and slice bounds are counted in bytes (`byteLen`), as in Go.
* A Go `map[string]string` is an association list with pairwise distinct keys;
  two maps are equal as Go maps when `GoMap.get` agrees on every key.
* A run-time panic is an explicit outcome (`Outcome.panic`).
* The process environment and the file system are explicit state.
-/

namespace Dotenv

/-- A Go string holding valid UTF-8 text. -/
abbrev Str := List Char

/-- Go `len(s)`: the number of bytes of the UTF-8 encoding of `s`. -/
def byteLen (s : Str) : Nat := (s.map Char.utf8Size).sum

/-- Go `unicode.IsSpace`: the Latin-1 spaces `\t \n \v \f \r`, space, U+0085, U+00A0,
and the code points with the Unicode property White_Space. -/
def isSpace (r : Char) : Bool :=
  let n := r.toNat
  (0x09 ≤ n && n ≤ 0x0D) || n == 0x20 || n == 0x85 || n == 0xA0 || n == 0x1680 ||
    (0x2000 ≤ n && n ≤ 0x200A) || n == 0x2028 || n == 0x2029 || n == 0x202F ||
    n == 0x205F || n == 0x3000

/-- Go `strings.TrimSpace`: removes all leading and trailing white space. -/
def TrimSpace (s : Str) : Str :=
  ((s.dropWhile isSpace).reverse.dropWhile isSpace).reverse

/-- Go `strings.ContainsAny(s, chars)`: some character of `chars` occurs in `s`. -/
def ContainsAny (s chars : Str) : Bool := s.any (fun c => chars.contains c)

/-- Go `strings.Index(s, sep)` for a one-character `sep`: the byte offset of the first
occurrence of `sep` in `s`; `none` stands for the result `-1`. -/
def Index : Str → Char → Option Nat
  | [], _ => none
  | c :: s, sep => if c = sep then some 0 else (Index s sep).map (fun i => c.utf8Size + i)

/-- Go slice expression `s[:i]` with `i` a byte offset.  `none` when `i` is out of range
(Go panics) or falls inside a multi-byte character (the result would not be valid UTF-8). -/
def sliceTo : Str → Nat → Option Str
  | _, 0 => some []
  | [], _ + 1 => none
  | c :: s, n + 1 =>
    if c.utf8Size ≤ n + 1 then (sliceTo s (n + 1 - c.utf8Size)).map (fun t => c :: t) else none

/-- Go slice expression `s[i:]` with `i` a byte offset.  `none` when `i` is out of range
(Go panics) or falls inside a multi-byte character (the result would not be valid UTF-8). -/
def sliceFrom : Str → Nat → Option Str
  | s, 0 => some s
  | [], _ + 1 => none
  | c :: s, n + 1 => if c.utf8Size ≤ n + 1 then sliceFrom s (n + 1 - c.utf8Size) else none

/-- The loop of Go `strings.genSplit` for a one-character separator: at most `k` further
cuts, each at the first occurrence of `sep` in what is left. -/
def splitLoop (sep : Char) : Nat → Str → List Str
  | 0, s => [s]
  | k + 1, s =>
    if sep ∈ s then s.takeWhile (fun c => c != sep) :: splitLoop sep k ((s.dropWhile (fun c => c != sep)).drop 1)
    else [s]

/-- Go `strings.SplitN(s, sep, n)` for a one-character `sep` and `n ≥ 0`: `n = 0` gives
no substrings; otherwise at most `n` substrings, the last one being the unsplit remainder. -/
def SplitN (s : Str) (sep : Char) (n : Nat) : List Str :=
  if n = 0 then [] else splitLoop sep (min n (byteLen s + 1) - 1) s

/-- An `io.Reader`: the bytes it delivers, and the error (other than `io.EOF`) with which
it stops after them, if any. -/
structure Reader where
  data : Str
  err : Option String
deriving DecidableEq, Repr

/-- Go `strings.NewReader`. -/
def NewReader (s : Str) : Reader := ⟨s, none⟩

/-- Go `bufio.MaxScanTokenSize`: the size of the largest buffer of a `bufio.Scanner`. -/
def MaxScanTokenSize : Nat := 64 * 1024

/-- Go `bufio.dropCR`: drops one terminal `\r` from the data. -/
def dropCR (data : Str) : Str :=
  if data.getLast? = some '\r' then data.dropLast else data

/-- The tokens for which `scanner.Scan()` returns true, for a `bufio.Scanner` with the
`ScanLines` split function reading `data`; `cur` is the part of the current line already
in the buffer.  A line ends at `\n` or at the end of the data (a final empty line is no
token).  When the buffer has grown to `MaxScanTokenSize` bytes without holding a line
end, `Scan` records `ErrTooLong` and returns false, now and ever after. -/
def scanLoop : Str → Str → List Str
  | [], cur =>
    if cur.isEmpty then [] else if MaxScanTokenSize ≤ byteLen cur then [] else [dropCR cur]
  | c :: rest, cur =>
    if c = '\n' then
      if MaxScanTokenSize ≤ byteLen cur then [] else dropCR cur :: scanLoop rest []
    else scanLoop rest (cur ++ [c])

/-- The value of `scanner.Err()` once `Scan` has returned false: `ErrTooLong` for the
first line that does not fit the buffer, otherwise the error of the reader. -/
def scanErrLoop (readErr : Option String) : Str → Str → Option String
  | [], cur =>
    if MaxScanTokenSize ≤ byteLen cur then some "bufio.Scanner: token too long" else readErr
  | c :: rest, cur =>
    if c = '\n' then
      if MaxScanTokenSize ≤ byteLen cur then some "bufio.Scanner: token too long"
      else scanErrLoop readErr rest []
    else scanErrLoop readErr rest (cur ++ [c])

/-- The lines handed to the loop body of `Parser` by `for scanner.Scan()`. -/
def scanLines (reader : Reader) : List Str := scanLoop reader.data []

/-- The error held by the scanner when the loop `for scanner.Scan()` ends. -/
def scanErr (reader : Reader) : Option String := scanErrLoop reader.err reader.data []

/-- A Go `map[string]string`: an association list with pairwise distinct keys. -/
abbrev GoMap := List (Str × Str)

/-- Go `m[k]` with the comma-ok form: the value stored under `k`, if any. -/
def GoMap.get : GoMap → Str → Option Str
  | [], _ => none
  | (k', v') :: m, k => if k' = k then some v' else GoMap.get m k

/-- Go `m[k] = v`: overwrites the value of an existing key, adds the key otherwise. -/
def GoMap.set : GoMap → Str → Str → GoMap
  | [], k, v => [(k, v)]
  | (k', v') :: m, k, v => if k' = k then (k, v) :: m else (k', v') :: GoMap.set m k v

/-- What a Go call does: it returns a value or panics. -/
inductive Outcome (α : Type) where
  | ret (val : α)
  | panic (reason : String)
deriving DecidableEq, Repr

/-- What one iteration of the loop of `Parser` does with the scanned line. -/
inductive LineStep where
  /-- `continue`: blank line or comment line -/
  | skip
  /-- `return nil, fmt.Errorf(msg)` -/
  | fail (msg : String)
  /-- `out[key] = val` -/
  | store (key val : Str)
  /-- run-time panic of an index or slice expression -/
  | panic (reason : String)
deriving DecidableEq, Repr

/-- The slice `keyVal` of `Parser` (lines 48 to 53): the line split in two at the first
`=` when it has one, otherwise at the first `:`. -/
def splitKeyVal (line : Str) : List Str :=
  if ContainsAny line ['='] then SplitN line '=' 2 else SplitN line ':' 2

/-- The body of the loop `for scanner.Scan()` of `Parser` (lines 40 to 68), applied to
`scanner.Text()`. -/
def lineStep (text : Str) : LineStep :=
  let line := TrimSpace text
  if byteLen line == 0 || line.head? == some '#' then .skip
  else if !ContainsAny line ['='] && !ContainsAny line [':'] then
    .fail "line is not a key value pair"
  else
    let keyVal := splitKeyVal line
    match keyVal.get? 0, keyVal.get? 1 with
    | some key, some val =>
      let key? := if 6 ≤ byteLen line && line.take 6 == "export".toList
        then sliceFrom key 6 else some key
      let val? := if ContainsAny val ['#']
        then (Index val '#').bind (sliceTo val) else some val
      match key?, val? with
      | some key, some val =>
        let key := TrimSpace key
        let val := TrimSpace val
        if byteLen key == 0 || byteLen val == 0 then .fail "key val aren't valid"
        else .store key val
      | _, _ => .panic "slice bounds out of range"
    | _, _ => .panic "index out of range"

/-- The loop of `Parser` over the scanned lines, `out` being the map built so far.  The
return value is the Go pair `(map, error)`, `none` standing for `nil`. -/
def parseLoop : List Str → GoMap → Outcome (Option GoMap × Option String)
  | [], out => .ret (some out, none)
  | text :: rest, out =>
    match lineStep text with
    | .skip => parseLoop rest out
    | .fail msg => .ret (none, some msg)
    | .store key val => parseLoop rest (out.set key val)
    | .panic reason => .panic reason

/-- Go `Parser`: reads an env file from an `io.Reader`, returning a map of keys and
values.  `scanner.Err()` is not consulted. -/
def Parser (reader : Reader) : Outcome (Option GoMap × Option String) :=
  parseLoop (scanLines reader) []

/-- Go `Unmarshal`: reads an env file from a string. -/
def Unmarshal (str : Str) : Outcome (Option GoMap × Option String) :=
  Parser (NewReader str)

/-- The process environment: the variables that are set, with their values. -/
abbrev Env := List (Str × Str)

/-- Go `os.Setenv` (Unix): fails with `EINVAL` when the key is empty or holds `=` or a
NUL byte, or the value holds a NUL byte (`syscall.EINVAL` wrapped by
`os.NewSyscallError`); otherwise sets the variable, replacing the value
of a variable that is already set.  Returns the environment after the call and the error. -/
def Setenv (env : Env) (key value : Str) : Env × Option String :=
  if byteLen key == 0 || key.any (fun c => c == '=' || c == Char.ofNat 0) ||
      value.any (fun c => c == Char.ofNat 0) then (env, some "setenv: invalid argument")
  else (GoMap.set env key value, none)

/-- Go `os.Getenv` in its `LookupEnv` form: the value of a variable that is set. -/
def LookupEnv (env : Env) (key : Str) : Option Str := GoMap.get env key

/-- The file system as `os.Open` sees it: a name opens to a reader over the content of the
file, or the call fails with an error. -/
abbrev FileSystem := Str → Except String Reader

/-- The loop `for key, value := range out` of `loadFile` (lines 86 to 91) over the pairs
of the map in the order in which the iteration visits them. -/
def setAll : List (Str × Str) → Env → Env × Option String
  | [], env => (env, none)
  | (key, value) :: rest, env =>
    match Setenv env key value with
    | (env', some err) => (env', some err)
    | (env', none) => setAll rest env'

/-- Go `loadFile`.  The iteration order of a Go map is unspecified: `order` gives the
order in which `range out` visits the pairs.  Returns the environment after the call and
the error. -/
def loadFile (fs : FileSystem) (order : GoMap → List (Str × Str)) (filename : Str)
    (env : Env) : Outcome (Env × Option String) :=
  match fs filename with
  | .error err => .ret (env, some err)
  | .ok file =>
    match Parser file with
    | .panic reason => .panic reason
    | .ret (_, some err) => .ret (env, some err)
    | .ret (out, none) => .ret (setAll (order (out.getD [])) env)

/-- The loop `for _, filename := range filenames` of `Load` (lines 26 to 32). -/
def loadFiles (fs : FileSystem) (order : GoMap → List (Str × Str)) :
    List Str → Env → Outcome (Env × Option String)
  | [], env => .ret (env, none)
  | filename :: rest, env =>
    match loadFile fs order filename env with
    | .ret (env', none) => loadFiles fs order rest env'
    | other => other

/-- Go `Load`: reads the env file(s) and loads them into the environment of the process;
without any argument it loads `.env`. -/
def Load (fs : FileSystem) (order : GoMap → List (Str × Str)) (filenames : List Str)
    (env : Env) : Outcome (Env × Option String) :=
  if filenames.length = 0 then loadFile fs order ".env".toList env
  else loadFiles fs order filenames env

/-! ## Notions of the specification -/

/-- The lines of a text: the pieces between line breaks (a text that ends with a line
break has an empty last piece). -/
def splitLines : Str → List Str
  | [] => [[]]
  | c :: s =>
    if c = '\n' then [] :: splitLines s
    else match splitLines s with
      | [] => [[c]]
      | l :: ls => (c :: l) :: ls

/-- A line fits the buffer of the scanner. -/
def fitsScanner (l : Str) : Bool := decide (byteLen l < MaxScanTokenSize)

/-- The separator of a trimmed line as the specification chooses it: `=` when the line
has one, `:` otherwise. -/
def sepOf (line : Str) : Char := if '=' ∈ line then '=' else ':'

/-- The candidate key of a trimmed line: the text before the first separator. -/
def candKey (line : Str) : Str := line.takeWhile (fun c => c != sepOf line)

/-- The candidate value of a trimmed line: the text after the first separator. -/
def candVal (line : Str) : Str := (line.dropWhile (fun c => c != sepOf line)).drop 1

/-- The recorded key of a trimmed line: the candidate key without a leading `export`,
trimmed. -/
def recKey (line : Str) : Str :=
  TrimSpace (if "export".toList <+: candKey line then (candKey line).drop 6 else candKey line)

/-- The recorded value of a trimmed line: the candidate value cut at its first `#`,
trimmed. -/
def recVal (line : Str) : Str := TrimSpace ((candVal line).takeWhile (fun c => c != '#'))

/-- The line algorithm of the specification (section 4.1, steps 1 to 9). -/
def lineSpec (text : Str) : LineStep :=
  let line := TrimSpace text
  if line = [] ∨ line.head? = some '#' then .skip
  else if '=' ∉ line ∧ ':' ∉ line then .fail "line is not a key value pair"
  else if recKey line = [] ∨ recVal line = [] then .fail "key val aren't valid"
  else .store (recKey line) (recVal line)

/-- A line without separator: after trimming it is not empty, does not begin with `#`
and holds neither `=` nor `:`. -/
def noSeparatorLine (text : Str) : Prop :=
  TrimSpace text ≠ [] ∧ (TrimSpace text).head? ≠ some '#' ∧
    '=' ∉ TrimSpace text ∧ ':' ∉ TrimSpace text

/-- A line that has a separator and whose recorded key or recorded value is empty. -/
def emptyKeyOrValueLine (text : Str) : Prop :=
  ('=' ∈ TrimSpace text ∨ ':' ∈ TrimSpace text) ∧
    (recKey (TrimSpace text) = [] ∨ recVal (TrimSpace text) = [])

/-- A line with an invalid pair: not blank, not a comment, with a separator, and with an
empty recorded key or an empty recorded value. -/
def invalidPairLine (text : Str) : Prop :=
  TrimSpace text ≠ [] ∧ (TrimSpace text).head? ≠ some '#' ∧ emptyKeyOrValueLine text

/-- An offending line: a line without separator or a line with an invalid pair. -/
def offendingLine (text : Str) : Prop := noSeparatorLine text ∨ invalidPairLine text

instance : DecidablePred noSeparatorLine := fun _ => by
  unfold noSeparatorLine; infer_instance

instance : DecidablePred emptyKeyOrValueLine := fun _ => by
  unfold emptyKeyOrValueLine; infer_instance

instance : DecidablePred invalidPairLine := fun _ => by
  unfold invalidPairLine; infer_instance

instance : DecidablePred offendingLine := fun _ => by
  unfold offendingLine; infer_instance

/-- A line `K S V` that is well formed: `S` is a separator, and it is the separator at
which the line is split (`K` holds no `=` and, when `S` is `:`, neither does `V`, nor
does `K` hold a `:`); key and value are not empty after trimming; the value holds no
`#`; the trimmed key begins neither with `#` nor with `export`. -/
structure WellFormedLine (K : Str) (S : Char) (V : Str) : Prop where
  sep : S = '=' ∨ S = ':'
  key_nonempty : TrimSpace K ≠ []
  val_nonempty : TrimSpace V ≠ []
  key_no_eq : '=' ∉ K
  colon : S = ':' → ':' ∉ K ∧ '=' ∉ V
  val_no_hash : '#' ∉ V
  key_no_hash : (TrimSpace K).head? ≠ some '#'
  key_no_export : ¬ "export".toList <+: TrimSpace K

/-- The text of the line `K S V`. -/
def lineOf (t : Str × Char × Str) : Str := t.1 ++ t.2.1 :: t.2.2

/-- The pair that a well-formed line `K S V` stands for: trimmed key, trimmed value. -/
def pairOf (t : Str × Char × Str) : Str × Str := (TrimSpace t.1, TrimSpace t.2.2)

/-- Writing a mapping back: one line `key=value` per pair, in the order of the list. -/
def serialize : List (Str × Str) → Str
  | [] => []
  | (k, v) :: rest => k ++ '=' :: v ++ '\n' :: serialize rest

/-- Recording pairs one after the other into a map, as the loop of `Parser` does. -/
def recordAll (out : GoMap) (ps : List (Str × Str)) : GoMap :=
  ps.foldl (fun m kv => m.set kv.1 kv.2) out

/-- What holds of every pair that `Parser` stores: key and value are not empty and are
trimmed, the key holds no `=`, the value no `#`, neither holds a line break, and the
line `key=value` fits the buffer of the scanner. -/
structure StoredPair (k v : Str) : Prop where
  key_ne : k ≠ []
  val_ne : v ≠ []
  key_trim : TrimSpace k = k
  val_trim : TrimSpace v = v
  key_no_eq : '=' ∉ k
  val_no_hash : '#' ∉ v
  key_no_nl : '\n' ∉ k
  val_no_nl : '\n' ∉ v
  fits : fitsScanner (k ++ '=' :: v) = true

/-- The files that `Load` reads: the file `.env` when no filename is given, the given
files otherwise. -/
def effectiveFiles (filenames : List Str) : List Str :=
  if filenames.length = 0 then [".env".toList] else filenames

/-- The error with which a file fails to open or to parse, if it does. -/
def fileError (fs : FileSystem) (filename : Str) : Option String :=
  match fs filename with
  | .error err => some err
  | .ok file =>
    match Parser file with
    | .ret (_, some err) => some err
    | _ => none

/-- The map that `Parser` returns for the content of a file; the empty map for a file
that fails to open or to parse. -/
def parsedMap (fs : FileSystem) (filename : Str) : GoMap :=
  match fs filename with
  | .error _ => []
  | .ok file =>
    match Parser file with
    | .ret (some m, _) => m
    | _ => []

/-- The value that the last map of a list holding the key gives to it, if any map of the
list holds the key. -/
def lastValue : List GoMap → Str → Option Str
  | [], _ => none
  | m :: rest, k =>
    match lastValue rest k with
    | some v => some v
    | none => m.get k

/-- The value of a variable after the pairs of a list of files have been applied in
order to an environment: the value given by the last file that holds the variable, and
the value in the environment when no file holds it. -/
def valueAfter (env : Env) (maps : List GoMap) (k : Str) : Option Str :=
  match lastValue maps k with
  | some v => some v
  | none => LookupEnv env k

/-- A file system for the examples: the file `a` with two well-formed lines, the file `b`
with a line without separator, the file `c` with two well-formed lines, one of them for a
key of `a`, the file `nul` whose second value is a NUL byte; no other file exists. -/
def demoFS : FileSystem := fun name =>
  if name = "a".toList then .ok (NewReader "A=1\nB=2\n".toList)
  else if name = "b".toList then .ok (NewReader "bad line".toList)
  else if name = "c".toList then .ok (NewReader "B=3\nC=4\n".toList)
  else if name = "nul".toList then .ok (NewReader "A=1\nB=\x00".toList)
  else .error ("open " ++ String.mk name ++ ": no such file or directory")

/-- The pairs that the loop body of `Parser` stores for the lines of a list, in order. -/
def storedPairs : List Str → List (Str × Str)
  | [] => []
  | text :: rest =>
    match lineStep text with
    | .store key val => (key, val) :: storedPairs rest
    | _ => storedPairs rest

/-! ## Strings -/

theorem utf8Size_pos (c : Char) : 0 < c.utf8Size := Char.utf8Size_pos c

theorem byteLen_nil : byteLen [] = 0 := rfl

theorem byteLen_cons (c : Char) (s : Str) : byteLen (c :: s) = c.utf8Size + byteLen s := by
  simp [byteLen]

theorem byteLen_append (s t : Str) : byteLen (s ++ t) = byteLen s + byteLen t := by
  simp [byteLen]

theorem byteLen_eq_zero {s : Str} : byteLen s = 0 ↔ s = [] := by
  cases s with
  | nil => simp [byteLen_nil]
  | cons c s =>
    have := utf8Size_pos c
    simp [byteLen_cons]; omega

theorem length_le_byteLen (s : Str) : s.length ≤ byteLen s := by
  induction s with
  | nil => simp [byteLen_nil]
  | cons c s ih =>
    have := utf8Size_pos c
    simp [byteLen_cons]; omega

theorem containsAny_singleton (s : Str) (c : Char) : ContainsAny s [c] = true ↔ c ∈ s := by
  induction s with
  | nil => simp [ContainsAny]
  | cons d s ih =>
    simp only [ContainsAny, List.any_cons, Bool.or_eq_true, List.mem_cons] at ih ⊢
    rw [ih]
    simp [eq_comm]

theorem splitLoop_one {sep : Char} {s : Str} (h : sep ∈ s) :
    splitLoop sep 1 s =
      [s.takeWhile (fun c => c != sep), (s.dropWhile (fun c => c != sep)).drop 1] := by
  simp [splitLoop, h]

theorem SplitN_two {sep : Char} {s : Str} (h : sep ∈ s) :
    SplitN s sep 2 =
      [s.takeWhile (fun c => c != sep), (s.dropWhile (fun c => c != sep)).drop 1] := by
  have hne : s ≠ [] := List.ne_nil_of_mem h
  have hpos : 0 < byteLen s := Nat.pos_of_ne_zero (fun h0 => hne (byteLen_eq_zero.mp h0))
  have hmin : min 2 (byteLen s + 1) - 1 = 1 := by omega
  simp only [SplitN, hmin]
  simpa using splitLoop_one h

theorem sepOf_mem {line : Str} (h : ¬('=' ∉ line ∧ ':' ∉ line)) : sepOf line ∈ line := by
  unfold sepOf
  by_cases he : '=' ∈ line
  · simp [he]
  · simp only [he, if_false]
    by_contra hc
    exact h ⟨he, hc⟩

theorem splitKeyVal_eq {line : Str} (h : ¬('=' ∉ line ∧ ':' ∉ line)) :
    splitKeyVal line = [candKey line, candVal line] := by
  have hmem := sepOf_mem h
  unfold splitKeyVal candKey candVal
  by_cases he : '=' ∈ line
  · have hs : sepOf line = '=' := by simp [sepOf, he]
    rw [if_pos ((containsAny_singleton line '=').mpr he), hs]
    exact SplitN_two he
  · have hs : sepOf line = ':' := by simp [sepOf, he]
    have hc : ¬ ContainsAny line ['='] = true := fun hc => he ((containsAny_singleton line '=').mp hc)
    rw [if_neg hc, hs]
    rw [hs] at hmem
    exact SplitN_two hmem

theorem sliceTo_cons_add (c : Char) (s : Str) (i : Nat) :
    sliceTo (c :: s) (c.utf8Size + i) = (sliceTo s i).map (fun t => c :: t) := by
  have hpos := utf8Size_pos c
  obtain ⟨k, hk⟩ : ∃ k, c.utf8Size + i = k + 1 := ⟨c.utf8Size + i - 1, by omega⟩
  have hle : c.utf8Size ≤ k + 1 := by omega
  have hsub : k + 1 - c.utf8Size = i := by omega
  rw [hk]
  simp only [sliceTo, hle, if_true, hsub]

theorem sliceFrom_cons_add (c : Char) (s : Str) (i : Nat) :
    sliceFrom (c :: s) (c.utf8Size + i) = sliceFrom s i := by
  have hpos := utf8Size_pos c
  obtain ⟨k, hk⟩ : ∃ k, c.utf8Size + i = k + 1 := ⟨c.utf8Size + i - 1, by omega⟩
  have hle : c.utf8Size ≤ k + 1 := by omega
  have hsub : k + 1 - c.utf8Size = i := by omega
  rw [hk]
  simp only [sliceFrom, hle, if_true, hsub]

theorem sliceFrom_zero (s : Str) : sliceFrom s 0 = some s := by
  cases s <;> rfl

theorem sliceFrom_byteLen_append (p s : Str) : sliceFrom (p ++ s) (byteLen p) = some s := by
  induction p with
  | nil => simpa [byteLen_nil] using sliceFrom_zero s
  | cons c p ih =>
    rw [byteLen_cons, List.cons_append, sliceFrom_cons_add]
    exact ih

theorem index_bind_sliceTo {val : Str} {c : Char} (h : c ∈ val) :
    (Index val c).bind (sliceTo val) = some (val.takeWhile (fun d => d != c)) := by
  induction val with
  | nil => simp at h
  | cons d s ih =>
    by_cases hd : d = c
    · subst hd
      simp [Index, sliceTo]
    · have hs : c ∈ s := by
        rcases List.mem_cons.mp h with h1 | h1
        · exact absurd h1.symm hd
        · exact h1
      have ih2 := ih hs
      cases hi : Index s c with
      | none => rw [hi] at ih2; simp at ih2
      | some i =>
        rw [hi] at ih2
        simp only [Option.some_bind] at ih2
        simp only [Index, hd, if_false, hi, Option.map_some', Option.some_bind]
        rw [sliceTo_cons_add, ih2]
        simp [hd]

/-- The guard `len(line) >= 6 && line[:6] == "export"` says that the line starts with
the six characters `export`. -/
theorem exportGuard_iff (line : Str) :
    (decide (6 ≤ byteLen line) && line.take 6 == "export".toList) = true ↔
      "export".toList <+: line := by
  constructor
  · intro h
    simp only [Bool.and_eq_true, decide_eq_true_eq, beq_iff_eq] at h
    rw [← h.2]
    exact List.take_prefix 6 line
  · rintro ⟨t, rfl⟩
    have hlen := length_le_byteLen ("export".toList ++ t)
    rw [List.length_append] at hlen
    have h6 : "export".toList.length = 6 := by decide
    simp only [Bool.and_eq_true, decide_eq_true_eq, beq_iff_eq]
    constructor
    · omega
    · exact List.take_left' h6

theorem prefix_takeWhile_iff {p : Str} {f : Char → Bool} (hp : ∀ c ∈ p, f c = true) (l : Str) :
    p <+: l.takeWhile f ↔ p <+: l := by
  constructor
  · intro h
    exact h.trans (List.takeWhile_prefix f)
  · rintro ⟨t, rfl⟩
    rw [List.takeWhile_append_of_pos hp]
    exact List.prefix_append _ _

/-- The prefix test on the line agrees with the prefix test on the candidate key. -/
theorem export_prefix_candKey (line : Str) :
    "export".toList <+: candKey line ↔ "export".toList <+: line := by
  unfold candKey
  apply prefix_takeWhile_iff
  intro c hc
  have hsep : sepOf line = '=' ∨ sepOf line = ':' := by
    unfold sepOf; split_ifs <;> simp
  have hc6 : c = 'e' ∨ c = 'x' ∨ c = 'p' ∨ c = 'o' ∨ c = 'r' ∨ c = 't' := by
    simpa using hc
  rcases hsep with h | h <;> rw [h] <;> rcases hc6 with h | h | h | h | h | h <;> rw [h] <;> decide

theorem sliceFrom_export {key : Str} (h : "export".toList <+: key) :
    sliceFrom key 6 = some (key.drop 6) := by
  obtain ⟨t, rfl⟩ := h
  have h6 : byteLen "export".toList = 6 := by decide
  have := sliceFrom_byteLen_append "export".toList t
  rw [h6] at this
  rw [this]
  simp

theorem takeWhile_ne_of_not_mem {val : Str} {c : Char} (h : c ∉ val) :
    val.takeWhile (fun d => d != c) = val := by
  rw [List.takeWhile_eq_self_iff]
  intro x hx
  simp only [bne_iff_ne, ne_eq]
  rintro rfl
  exact h hx

theorem empty_test (k v : Str) (a b : LineStep) :
    (if (byteLen k == 0 || byteLen v == 0) = true then a else b) =
      if k = [] ∨ v = [] then a else b := by
  by_cases h : k = [] ∨ v = []
  · have : (byteLen k == 0 || byteLen v == 0) = true := by
      rcases h with h | h
      · simp [h, byteLen_nil]
      · simp [h, byteLen_nil]
    rw [if_pos this, if_pos h]
  · have : ¬ (byteLen k == 0 || byteLen v == 0) = true := by
      intro hc
      apply h
      rcases Bool.or_eq_true _ _ |>.mp hc with h | h
      · left; exact byteLen_eq_zero.mp (by simpa using h)
      · right; exact byteLen_eq_zero.mp (by simpa using h)
    rw [if_neg this, if_neg h]

/-- The loop body of `Parser` computes the line algorithm of the specification; in
particular no index or slice expression of the body panics. -/
theorem lineStep_eq_lineSpec (text : Str) : lineStep text = lineSpec text := by
  unfold lineStep lineSpec
  simp only []
  generalize TrimSpace text = line
  by_cases h1 : line = [] ∨ line.head? = some '#'
  · have : (byteLen line == 0 || line.head? == some '#') = true := by
      rcases h1 with h | h
      · simp [h, byteLen_nil]
      · simp [h]
    rw [if_pos this, if_pos h1]
  · have : ¬ (byteLen line == 0 || line.head? == some '#') = true := by
      intro hc
      apply h1
      rcases Bool.or_eq_true _ _ |>.mp hc with h | h
      · left; exact byteLen_eq_zero.mp (by simpa using h)
      · right; simpa using h
    rw [if_neg this, if_neg h1]
    by_cases h2 : '=' ∉ line ∧ ':' ∉ line
    · have : (!ContainsAny line ['='] && !ContainsAny line [':']) = true := by
        have a : ContainsAny line ['='] = false := by
          rw [Bool.eq_false_iff]; exact fun hc => h2.1 ((containsAny_singleton _ _).mp hc)
        have b : ContainsAny line [':'] = false := by
          rw [Bool.eq_false_iff]; exact fun hc => h2.2 ((containsAny_singleton _ _).mp hc)
        simp [a, b]
      rw [if_pos this, if_pos h2]
    · have : ¬ (!ContainsAny line ['='] && !ContainsAny line [':']) = true := by
        intro hc
        apply h2
        simp only [Bool.and_eq_true, Bool.not_eq_true', Bool.eq_false_iff, ne_eq] at hc
        exact ⟨fun hm => hc.1 ((containsAny_singleton _ _).mpr hm),
          fun hm => hc.2 ((containsAny_singleton _ _).mpr hm)⟩
      rw [if_neg this, if_neg h2, splitKeyVal_eq h2]
      simp only [List.get?_cons_zero, List.get?_cons_succ]
      have hkey : (if (decide (6 ≤ byteLen line) && line.take 6 == "export".toList) = true
          then sliceFrom (candKey line) 6 else some (candKey line)) =
          some (if "export".toList <+: candKey line then (candKey line).drop 6
            else candKey line) := by
        by_cases he : "export".toList <+: line
        · rw [if_pos ((exportGuard_iff line).mpr he),
            if_pos ((export_prefix_candKey line).mpr he)]
          exact sliceFrom_export ((export_prefix_candKey line).mpr he)
        · rw [if_neg (fun hc => he ((exportGuard_iff line).mp hc)),
            if_neg (fun hc => he ((export_prefix_candKey line).mp hc))]
      have hval : (if ContainsAny (candVal line) ['#'] = true
          then (Index (candVal line) '#').bind (sliceTo (candVal line))
          else some (candVal line)) =
          some ((candVal line).takeWhile (fun c => c != '#')) := by
        by_cases hh : '#' ∈ candVal line
        · rw [if_pos ((containsAny_singleton _ _).mpr hh)]
          exact index_bind_sliceTo hh
        · rw [if_neg (fun hc => hh ((containsAny_singleton _ _).mp hc)),
            takeWhile_ne_of_not_mem hh]
      rw [hkey, hval]
      simp only [recKey, recVal]
      exact empty_test _ _ _ _

/-! ## White space -/

theorem trimSpace_eq (s : Str) :
    TrimSpace s = (s.dropWhile isSpace).rdropWhile isSpace := rfl

theorem trimSpace_nil : TrimSpace [] = [] := rfl

theorem rdropWhile_append_of_pos {p : Char → Bool} (l : Str) {r : Str}
    (h : ∀ a ∈ r, p a = true) : (l ++ r).rdropWhile p = l.rdropWhile p := by
  induction r using List.reverseRecOn with
  | nil => simp
  | append_singleton r x ih =>
    rw [← List.append_assoc, List.rdropWhile_concat_pos _ _ _ (h x (by simp))]
    exact ih (fun a ha => h a (by simp [ha]))

theorem rdropWhile_append_of_neg {p : Char → Bool} {x : Char} (hx : ¬ p x = true)
    (l r : Str) : (l ++ x :: r).rdropWhile p = l ++ x :: r.rdropWhile p := by
  induction r using List.reverseRecOn with
  | nil =>
    simpa using List.rdropWhile_concat_neg p l x hx
  | append_singleton r y ih =>
    have e : l ++ x :: (r ++ [y]) = (l ++ x :: r) ++ [y] := by simp
    rw [e, List.rdropWhile_concat, List.rdropWhile_concat]
    by_cases hy : p y = true
    · rw [if_pos hy, if_pos hy, ih]
    · rw [if_neg hy, if_neg hy]; simp

theorem dropWhile_append_of_neg {p : Char → Bool} {x : Char} (hx : ¬ p x = true)
    (l r : Str) : (l ++ x :: r).dropWhile p = l.dropWhile p ++ x :: r := by
  induction l with
  | nil => simp [List.dropWhile_cons, hx]
  | cons a l ih =>
    by_cases ha : p a = true
    · simp [List.dropWhile_cons, ha, ih]
    · simp [List.dropWhile_cons, ha]

/-- Trimming a text around a character that is not white space. -/
theorem trimSpace_around {x : Char} (hx : isSpace x = false) (l r : Str) :
    TrimSpace (l ++ x :: r) = l.dropWhile isSpace ++ x :: r.rdropWhile isSpace := by
  have hx' : ¬ isSpace x = true := by simp [hx]
  rw [trimSpace_eq, dropWhile_append_of_neg hx', rdropWhile_append_of_neg hx']

theorem trimSpace_append_spaces (s : Str) {w : Str} (hw : ∀ a ∈ w, isSpace a = true) :
    TrimSpace (s ++ w) = TrimSpace s := by
  rw [trimSpace_eq, trimSpace_eq, List.dropWhile_append]
  by_cases hs : (s.dropWhile isSpace).isEmpty = true
  · rw [if_pos hs]
    have h1 : w.dropWhile isSpace = [] := List.dropWhile_eq_nil_iff.mpr hw
    have h2 : s.dropWhile isSpace = [] := List.isEmpty_iff.mp hs
    rw [h1, h2]
  · rw [if_neg hs]
    exact rdropWhile_append_of_pos _ hw

theorem trimSpace_spaces_append {w : Str} (hw : ∀ a ∈ w, isSpace a = true) (s : Str) :
    TrimSpace (w ++ s) = TrimSpace s := by
  rw [trimSpace_eq, trimSpace_eq, List.dropWhile_append_of_pos hw]

theorem trimSpace_dropCR (l : Str) : TrimSpace (dropCR l) = TrimSpace l := by
  unfold dropCR
  split_ifs with h
  · have hl : l = l.dropLast ++ ['\r'] := by
      have hne : l ≠ [] := by rintro rfl; simp at h
      have := List.dropLast_append_getLast hne
      rw [List.getLast?_eq_getLast l hne] at h
      rw [← Option.some.inj h]
      exact this.symm
    conv_rhs => rw [hl]
    rw [trimSpace_append_spaces]
    intro a ha
    rw [List.mem_singleton.mp ha]
    decide
  · rfl

theorem lineStep_congr {a b : Str} (h : TrimSpace a = TrimSpace b) :
    lineStep a = lineStep b := by
  unfold lineStep
  simp only [h]

theorem lineStep_dropCR (l : Str) : lineStep (dropCR l) = lineStep l :=
  lineStep_congr (trimSpace_dropCR l)

theorem lineStep_nil : lineStep [] = .skip := by decide

/-! ## The scanner and the loop of `Parser` -/

theorem parseLoop_cons_congr {a b : Str} (h : lineStep a = lineStep b) (rest : List Str)
    (out : GoMap) : parseLoop (a :: rest) out = parseLoop (b :: rest) out := by
  simp only [parseLoop, h]

theorem parseLoop_cons_skip {a : Str} (h : lineStep a = .skip) (rest : List Str)
    (out : GoMap) : parseLoop (a :: rest) out = parseLoop rest out := by
  simp only [parseLoop, h]

theorem splitLines_ne_nil (s : Str) : splitLines s ≠ [] := by
  cases s with
  | nil => simp [splitLines]
  | cons c s =>
    simp only [splitLines]
    split_ifs
    · simp
    · split <;> simp

theorem splitLines_cons_newline (s : Str) : splitLines ('\n' :: s) = [] :: splitLines s := by
  simp [splitLines]

theorem splitLines_cons_other {c : Char} (hc : c ≠ '\n') {s : Str} {l : Str} {ls : List Str}
    (h : splitLines s = l :: ls) : splitLines (c :: s) = (c :: l) :: ls := by
  simp [splitLines, hc, h]

theorem fitsScanner_iff (l : Str) : fitsScanner l = true ↔ ¬ MaxScanTokenSize ≤ byteLen l := by
  simp [fitsScanner]

/-- The loop of `Parser` over the tokens of the scanner is the loop over the lines of the
text up to the first line that does not fit the buffer. -/
theorem parseLoop_scanLoop (s : Str) : ∀ (cur : Str) (out : GoMap) (l : Str) (ls : List Str),
    splitLines s = l :: ls →
    parseLoop (scanLoop s cur) out =
      parseLoop (((cur ++ l) :: ls).takeWhile fitsScanner) out := by
  induction s with
  | nil =>
    intro cur out l ls h
    simp only [splitLines, List.cons.injEq] at h
    obtain ⟨rfl, rfl⟩ := h
    simp only [scanLoop, List.append_nil]
    by_cases hc : cur = []
    · subst hc
      have : fitsScanner [] = true := by decide
      simp [List.takeWhile, this, parseLoop_cons_skip lineStep_nil]
    · have hce : cur.isEmpty = false := by simpa using hc
      by_cases hf : MaxScanTokenSize ≤ byteLen cur
      · have : fitsScanner cur = false := by
          rw [Bool.eq_false_iff]; exact fun h => (fitsScanner_iff cur).mp h hf
        simp [hce, hf, List.takeWhile, this]
      · have : fitsScanner cur = true := (fitsScanner_iff cur).mpr hf
        simp only [hce, hf, List.takeWhile, this, if_false, Bool.false_eq_true]
        exact parseLoop_cons_congr (lineStep_dropCR cur) [] out
  | cons c s ih =>
    intro cur out l ls h
    obtain ⟨l', ls', hs⟩ : ∃ l' ls', splitLines s = l' :: ls' := by
      cases hsl : splitLines s with
      | nil => exact absurd hsl (splitLines_ne_nil s)
      | cons a b => exact ⟨a, b, rfl⟩
    by_cases hc : c = '\n'
    · subst hc
      rw [splitLines_cons_newline, hs] at h
      simp only [List.cons.injEq] at h
      obtain ⟨rfl, rfl⟩ := h
      simp only [scanLoop, if_true, List.append_nil]
      by_cases hf : MaxScanTokenSize ≤ byteLen cur
      · have : fitsScanner cur = false := by
          rw [Bool.eq_false_iff]; exact fun h => (fitsScanner_iff cur).mp h hf
        simp [hf, List.takeWhile, this]
      · have hfit : fitsScanner cur = true := (fitsScanner_iff cur).mpr hf
        rw [if_neg hf, List.takeWhile_cons_of_pos hfit,
          parseLoop_cons_congr (lineStep_dropCR cur)]
        have key : ∀ o, parseLoop (scanLoop s []) o =
            parseLoop ((l' :: ls').takeWhile fitsScanner) o := by
          intro o
          simpa using ih [] o l' ls' hs
        simp only [parseLoop, key]
    · rw [splitLines_cons_other hc hs] at h
      simp only [List.cons.injEq] at h
      obtain ⟨rfl, rfl⟩ := h
      simp only [scanLoop, hc, if_false]
      have := ih (cur ++ [c]) out l' ls' hs
      simpa using this

/-- What `Parser` returns, in terms of the lines of the text: the loop runs over the lines
up to the first one that does not fit the buffer of the scanner. -/
theorem Parser_eq_parseLoop (reader : Reader) :
    Parser reader = parseLoop ((splitLines reader.data).takeWhile fitsScanner) [] := by
  obtain ⟨l, ls, hs⟩ : ∃ l ls, splitLines reader.data = l :: ls := by
    cases hsl : splitLines reader.data with
    | nil => exact absurd hsl (splitLines_ne_nil _)
    | cons a b => exact ⟨a, b, rfl⟩
  unfold Parser scanLines
  rw [parseLoop_scanLoop reader.data [] [] l ls hs, hs]
  simp

theorem lineStep_noSeparator {text : Str} (h : noSeparatorLine text) :
    lineStep text = .fail "line is not a key value pair" := by
  obtain ⟨h1, h2, h3, h4⟩ := h
  rw [lineStep_eq_lineSpec]
  unfold lineSpec
  simp only []
  rw [if_neg (by rintro (h | h); exacts [h1 h, h2 h]), if_pos ⟨h3, h4⟩]

theorem lineStep_invalidPair {text : Str} (h : invalidPairLine text) :
    lineStep text = .fail "key val aren't valid" := by
  obtain ⟨h1, h2, h3, h4⟩ := h
  rw [lineStep_eq_lineSpec]
  unfold lineSpec
  simp only []
  rw [if_neg (by rintro (h | h); exacts [h1 h, h2 h]),
    if_neg (by rintro ⟨ha, hb⟩; rcases h3 with h | h; exacts [ha h, hb h]), if_pos h4]

/-- A line that is not offending is skipped or stores a pair. -/
theorem lineStep_of_not_offending {text : Str} (h : ¬ offendingLine text) :
    lineStep text = .skip ∨ ∃ k v, lineStep text = .store k v := by
  rw [lineStep_eq_lineSpec]
  unfold lineSpec
  simp only []
  by_cases h1 : TrimSpace text = [] ∨ (TrimSpace text).head? = some '#'
  · left; rw [if_pos h1]
  · right
    rw [if_neg h1]
    have h1' : TrimSpace text ≠ [] ∧ (TrimSpace text).head? ≠ some '#' :=
      ⟨fun hc => h1 (Or.inl hc), fun hc => h1 (Or.inr hc)⟩
    by_cases h2 : '=' ∉ TrimSpace text ∧ ':' ∉ TrimSpace text
    · exact absurd (Or.inl ⟨h1'.1, h1'.2, h2.1, h2.2⟩) h
    · rw [if_neg h2]
      by_cases h3 : recKey (TrimSpace text) = [] ∨ recVal (TrimSpace text) = []
      · have hsep : '=' ∈ TrimSpace text ∨ ':' ∈ TrimSpace text := by
          by_contra hc
          exact h2 ⟨fun a => hc (Or.inl a), fun a => hc (Or.inr a)⟩
        exact absurd (Or.inr ⟨h1'.1, h1'.2, hsep, h3⟩) h
      · rw [if_neg h3]
        exact ⟨_, _, rfl⟩

theorem parseLoop_append_ok : ∀ (xs ys : List Str) (out m : GoMap),
    parseLoop xs out = .ret (some m, none) → parseLoop (xs ++ ys) out = parseLoop ys m := by
  intro xs
  induction xs with
  | nil =>
    intro ys out m h
    simp only [parseLoop, Outcome.ret.injEq, Prod.mk.injEq, Option.some.injEq, and_true] at h
    rw [h]; rfl
  | cons x xs ih =>
    intro ys out m h
    simp only [List.cons_append, parseLoop] at h ⊢
    cases hx : lineStep x with
    | skip => rw [hx] at h; simp only [] at h ⊢; exact ih ys out m h
    | fail msg => rw [hx] at h; simp at h
    | store k v => rw [hx] at h; simp only [] at h ⊢; exact ih ys _ m h
    | panic r => rw [hx] at h; simp at h

theorem parseLoop_append_fail : ∀ (xs ys : List Str) (out : GoMap) (e : String),
    parseLoop xs out = .ret (none, some e) → parseLoop (xs ++ ys) out = .ret (none, some e) := by
  intro xs
  induction xs with
  | nil =>
    intro ys out e h
    simp [parseLoop] at h
  | cons x xs ih =>
    intro ys out e h
    simp only [List.cons_append, parseLoop] at h ⊢
    cases hx : lineStep x with
    | skip => rw [hx] at h; simp only [] at h ⊢; exact ih ys out e h
    | fail msg => rw [hx] at h; simp only [] at h ⊢; exact h
    | store k v => rw [hx] at h; simp only [] at h ⊢; exact ih ys _ e h
    | panic r => rw [hx] at h; simp at h

theorem lineStep_ne_panic (text : Str) (r : String) : lineStep text ≠ .panic r := by
  rw [lineStep_eq_lineSpec]
  unfold lineSpec
  simp only []
  split_ifs <;> simp

/-- The loop of `Parser` returns a map without error, or an error without map. -/
theorem parseLoop_total : ∀ (xs : List Str) (out : GoMap),
    (∃ m, parseLoop xs out = .ret (some m, none)) ∨
      (∃ e, parseLoop xs out = .ret (none, some e)) := by
  intro xs
  induction xs with
  | nil => intro out; exact Or.inl ⟨out, rfl⟩
  | cons x xs ih =>
    intro out
    simp only [parseLoop]
    cases hx : lineStep x with
    | skip => exact ih out
    | fail msg => exact Or.inr ⟨msg, rfl⟩
    | store k v => exact ih _
    | panic r => exact absurd hx (lineStep_ne_panic x r)

/-- Over lines none of which is offending the loop of `Parser` succeeds. -/
theorem parseLoop_ok_of_not_offending : ∀ (xs : List Str) (out : GoMap),
    (∀ x ∈ xs, ¬ offendingLine x) → ∃ m, parseLoop xs out = .ret (some m, none) := by
  intro xs
  induction xs with
  | nil => intro out _; exact ⟨out, rfl⟩
  | cons x xs ih =>
    intro out h
    have hx := lineStep_of_not_offending (h x (by simp))
    have hxs : ∀ y ∈ xs, ¬ offendingLine y := fun y hy => h y (by simp [hy])
    simp only [parseLoop]
    rcases hx with hx | ⟨k, v, hx⟩
    · rw [hx]; exact ih out hxs
    · rw [hx]; exact ih _ hxs

/-- The loop of `Parser` fails when it meets a line on which the body fails: with the
error of an earlier line or with the error of this line, and with the error of this line
when no earlier line is offending. -/
theorem parseLoop_fail_at (pre : List Str) (l : Str) (post : List Str) (out : GoMap)
    (msg : String) (hl : lineStep l = .fail msg) :
    (∃ e, parseLoop (pre ++ l :: post) out = .ret (none, some e)) ∧
      ((∀ x ∈ pre, ¬ offendingLine x) →
        parseLoop (pre ++ l :: post) out = .ret (none, some msg)) := by
  have hfail : ∀ m, parseLoop (l :: post) m = .ret (none, some msg) := by
    intro m; simp only [parseLoop, hl]
  constructor
  · rcases parseLoop_total pre out with ⟨m, hm⟩ | ⟨e, he⟩
    · exact ⟨msg, by rw [parseLoop_append_ok pre _ out m hm]; exact hfail m⟩
    · exact ⟨e, parseLoop_append_fail pre _ out e he⟩
  · intro hpre
    obtain ⟨m, hm⟩ := parseLoop_ok_of_not_offending pre out hpre
    rw [parseLoop_append_ok pre _ out m hm]
    exact hfail m

theorem takeWhile_append_cons_of_fits {pre : List Str} {l : Str} (post : List Str)
    (hpre : ∀ x ∈ pre, fitsScanner x = true) (hl : fitsScanner l = true) :
    (pre ++ l :: post).takeWhile fitsScanner = pre ++ l :: post.takeWhile fitsScanner := by
  rw [List.takeWhile_append_of_pos hpre, List.takeWhile_cons_of_pos hl]

/-- A line on which the loop body fails makes `Parser` fail, provided the line and the
lines before it fit the buffer of the scanner. -/
theorem Parser_fail_at (reader : Reader) (pre : List Str) (l : Str) (post : List Str)
    (msg : String) (hlines : splitLines reader.data = pre ++ l :: post)
    (hl : lineStep l = .fail msg)
    (hpre : ∀ x ∈ pre, fitsScanner x = true) (hfit : fitsScanner l = true) :
    (∃ e, Parser reader = .ret (none, some e)) ∧
      ((∀ x ∈ pre, ¬ offendingLine x) → Parser reader = .ret (none, some msg)) := by
  rw [Parser_eq_parseLoop, hlines, takeWhile_append_cons_of_fits post hpre hfit]
  exact parseLoop_fail_at pre l _ [] msg hl

/-! ## Lines of the form `K S V` -/

theorem split_at_first {c : Char} {s : Str} (h : c ∈ s) : ∃ a b, s = a ++ c :: b ∧ c ∉ a := by
  induction s with
  | nil => simp at h
  | cons d s ih =>
    by_cases hd : d = c
    · exact ⟨[], s, by simp [hd], by simp⟩
    · have hs : c ∈ s := by
        rcases List.mem_cons.mp h with h1 | h1
        · exact absurd h1.symm hd
        · exact h1
      obtain ⟨a, b, hab, hca⟩ := ih hs
      refine ⟨d :: a, b, by simp [hab], ?_⟩
      simp only [List.mem_cons, not_or]
      exact ⟨fun e => hd e.symm, hca⟩

theorem takeWhile_ne_append {c : Char} {a : Str} (h : c ∉ a) (b : Str) :
    (a ++ c :: b).takeWhile (fun d => d != c) = a := by
  have hp : ∀ x ∈ a, (fun d => d != c) x = true := by
    intro x hx
    simp only [bne_iff_ne, ne_eq]
    rintro rfl
    exact h hx
  rw [List.takeWhile_append_of_pos hp]
  simp

theorem dropWhile_ne_append {c : Char} {a : Str} (h : c ∉ a) (b : Str) :
    (a ++ c :: b).dropWhile (fun d => d != c) = c :: b := by
  have hp : ∀ x ∈ a, (fun d => d != c) x = true := by
    intro x hx
    simp only [bne_iff_ne, ne_eq]
    rintro rfl
    exact h hx
  rw [List.dropWhile_append_of_pos hp]
  simp

theorem rdropWhile_append_dropped (p : Char → Bool) (s : Str) :
    ∃ w, s = s.rdropWhile p ++ w ∧ ∀ a ∈ w, p a = true := by
  induction s using List.reverseRecOn with
  | nil => exact ⟨[], by simp, by simp⟩
  | append_singleton s x ih =>
    by_cases hx : p x = true
    · obtain ⟨w, hw, hall⟩ := ih
      refine ⟨w ++ [x], ?_, ?_⟩
      · rw [List.rdropWhile_concat_pos _ _ _ hx, ← List.append_assoc, ← hw]
      · intro a ha
        rcases List.mem_append.mp ha with h | h
        · exact hall a h
        · rw [List.mem_singleton.mp h]; exact hx
    · exact ⟨[], by rw [List.rdropWhile_concat_neg _ _ _ hx]; simp, by simp⟩

theorem trimSpace_rdropWhile (s : Str) : TrimSpace (s.rdropWhile isSpace) = TrimSpace s := by
  obtain ⟨w, hw, hall⟩ := rdropWhile_append_dropped isSpace s
  conv_rhs => rw [hw]
  rw [trimSpace_append_spaces _ hall]

theorem trimSpace_dropWhile (s : Str) : TrimSpace (s.dropWhile isSpace) = TrimSpace s := by
  rw [trimSpace_eq, trimSpace_eq, List.dropWhile_idempotent]

theorem trimSpace_trimSpace (s : Str) : TrimSpace (TrimSpace s) = TrimSpace s := by
  conv_lhs => rw [trimSpace_eq s]
  rw [trimSpace_rdropWhile, trimSpace_dropWhile]

theorem mem_of_mem_rdropWhile {p : Char → Bool} {s : Str} {c : Char}
    (h : c ∈ s.rdropWhile p) : c ∈ s :=
  (List.rdropWhile_prefix p s).subset h

theorem mem_of_mem_dropWhile {p : Char → Bool} {s : Str} {c : Char}
    (h : c ∈ s.dropWhile p) : c ∈ s :=
  (List.dropWhile_suffix p).subset h

theorem mem_of_mem_trimSpace {s : Str} {c : Char} (h : c ∈ TrimSpace s) : c ∈ s :=
  mem_of_mem_dropWhile (mem_of_mem_rdropWhile h)

/-- Cutting at the first `#` does not see the white space at the end of the text. -/
theorem trimSpace_takeWhile_rdropWhile (V : Str) :
    TrimSpace ((V.rdropWhile isSpace).takeWhile (fun c => c != '#')) =
      TrimSpace (V.takeWhile (fun c => c != '#')) := by
  by_cases h : '#' ∈ V
  · obtain ⟨a, b, rfl, ha⟩ := split_at_first h
    rw [rdropWhile_append_of_neg (by decide), takeWhile_ne_append ha, takeWhile_ne_append ha]
  · have h' : '#' ∉ V.rdropWhile isSpace := fun hc => h (mem_of_mem_rdropWhile hc)
    rw [takeWhile_ne_of_not_mem h, takeWhile_ne_of_not_mem h', trimSpace_rdropWhile]

theorem head?_append_cons_ne {l r : Str} {x c : Char} (hx : x ≠ c) :
    (l ++ x :: r).head? = some c ↔ l.head? = some c := by
  cases l with
  | nil => simp [hx]
  | cons a l => simp

/-- What the loop body does with a line `K S V` whose separator `S` is the one at which
the line is split. -/
theorem lineStep_of_split (K V : Str) (S : Char) (hS : S = '=' ∨ S = ':') (hK : S ∉ K)
    (hEq : S = ':' → '=' ∉ K ∧ '=' ∉ V) :
    lineStep (K ++ S :: V) =
      if (K.dropWhile isSpace).head? = some '#' then .skip
      else if TrimSpace (if "export".toList <+: K.dropWhile isSpace
            then (K.dropWhile isSpace).drop 6 else K.dropWhile isSpace) = [] ∨
          TrimSpace (V.takeWhile (fun c => c != '#')) = [] then
        .fail "key val aren't valid"
      else .store (TrimSpace (if "export".toList <+: K.dropWhile isSpace
            then (K.dropWhile isSpace).drop 6 else K.dropWhile isSpace))
          (TrimSpace (V.takeWhile (fun c => c != '#'))) := by
  have hsp : isSpace S = false := by rcases hS with rfl | rfl <;> decide
  have hSh : S ≠ '#' := by rcases hS with rfl | rfl <;> decide
  have hline : TrimSpace (K ++ S :: V) = K.dropWhile isSpace ++ S :: V.rdropWhile isSpace :=
    trimSpace_around hsp K V
  have hKl : S ∉ K.dropWhile isSpace := fun hc => hK (mem_of_mem_dropWhile hc)
  have hmem : S ∈ K.dropWhile isSpace ++ S :: V.rdropWhile isSpace := by simp
  have hsep : sepOf (K.dropWhile isSpace ++ S :: V.rdropWhile isSpace) = S := by
    unfold sepOf
    rcases hS with rfl | rfl
    · rw [if_pos hmem]
    · have h1 := (hEq rfl).1
      have h2 := (hEq rfl).2
      rw [if_neg]
      simp only [List.mem_append, List.mem_cons, not_or]
      exact ⟨fun hc => h1 (mem_of_mem_dropWhile hc), by decide,
        fun hc => h2 (mem_of_mem_rdropWhile hc)⟩
  have hck : candKey (K.dropWhile isSpace ++ S :: V.rdropWhile isSpace) =
      K.dropWhile isSpace := by
    unfold candKey; rw [hsep]; exact takeWhile_ne_append hKl _
  have hcv : candVal (K.dropWhile isSpace ++ S :: V.rdropWhile isSpace) =
      V.rdropWhile isSpace := by
    unfold candVal; rw [hsep, dropWhile_ne_append hKl]; rfl
  rw [lineStep_eq_lineSpec]
  unfold lineSpec
  simp only []
  rw [hline]
  have hno : ¬ ('=' ∉ K.dropWhile isSpace ++ S :: V.rdropWhile isSpace ∧
      ':' ∉ K.dropWhile isSpace ++ S :: V.rdropWhile isSpace) := by
    rintro ⟨h1, h2⟩
    rcases hS with rfl | rfl
    · exact h1 hmem
    · exact h2 hmem
  have hrk : recKey (K.dropWhile isSpace ++ S :: V.rdropWhile isSpace) =
      TrimSpace (if "export".toList <+: K.dropWhile isSpace
        then (K.dropWhile isSpace).drop 6 else K.dropWhile isSpace) := by
    unfold recKey; rw [hck]
  have hrv : recVal (K.dropWhile isSpace ++ S :: V.rdropWhile isSpace) =
      TrimSpace (V.takeWhile (fun c => c != '#')) := by
    unfold recVal; rw [hcv, trimSpace_takeWhile_rdropWhile]
  rw [hrk, hrv]
  by_cases hc : (K.dropWhile isSpace).head? = some '#'
  · rw [if_pos hc, if_pos (Or.inr ((head?_append_cons_ne hSh).mpr hc))]
  · rw [if_neg hc, if_neg, if_neg hno]
    rintro (h | h)
    · simp at h
    · exact hc ((head?_append_cons_ne hSh).mp h)

theorem head?_eq_of_prefix {p l : Str} (h : p <+: l) (hp : p ≠ []) : l.head? = p.head? := by
  obtain ⟨t, rfl⟩ := h
  cases p with
  | nil => exact absurd rfl hp
  | cons a p => rfl

theorem export_prefix_rdropWhile {l : Str} (h : "export".toList <+: l) :
    "export".toList <+: l.rdropWhile isSpace := by
  obtain ⟨t, rfl⟩ := h
  have e : "export".toList ++ t = "expor".toList ++ 't' :: t := rfl
  rw [e, rdropWhile_append_of_neg (by decide)]
  exact ⟨t.rdropWhile isSpace, rfl⟩

/-- A well-formed line `K S V` stores the pair of the trimmed key and the trimmed value. -/
theorem lineStep_wellFormed {K V : Str} {S : Char} (h : WellFormedLine K S V) :
    lineStep (K ++ S :: V) = .store (TrimSpace K) (TrimSpace V) := by
  have hK : S ∉ K := by
    rcases h.sep with rfl | rfl
    · exact h.key_no_eq
    · exact (h.colon rfl).1
  have hEq : S = ':' → '=' ∉ K ∧ '=' ∉ V := fun e => ⟨h.key_no_eq, (h.colon e).2⟩
  rw [lineStep_of_split K V S h.sep hK hEq]
  have hpre : TrimSpace K <+: K.dropWhile isSpace := List.rdropWhile_prefix isSpace _
  have hhead : (K.dropWhile isSpace).head? = (TrimSpace K).head? :=
    head?_eq_of_prefix hpre h.key_nonempty
  have hexp : ¬ "export".toList <+: K.dropWhile isSpace :=
    fun hc => h.key_no_export (export_prefix_rdropWhile hc)
  rw [if_neg (by rw [hhead]; exact h.key_no_hash), if_neg hexp, trimSpace_dropWhile,
    takeWhile_ne_of_not_mem h.val_no_hash, if_neg]
  rintro (hc | hc)
  · exact h.key_nonempty hc
  · exact h.val_nonempty hc

/-! ## Lines of a text -/

theorem splitLines_of_not_mem {a : Str} (h : '\n' ∉ a) : splitLines a = [a] := by
  induction a with
  | nil => rfl
  | cons c a ih =>
    have hc : c ≠ '\n' := fun e => h (by simp [e])
    have ha : '\n' ∉ a := fun e => h (by simp [e])
    exact splitLines_cons_other hc (ih ha)

theorem splitLines_append_newline {a : Str} (h : '\n' ∉ a) (b : Str) :
    splitLines (a ++ '\n' :: b) = a :: splitLines b := by
  induction a with
  | nil => exact splitLines_cons_newline b
  | cons c a ih =>
    have hc : c ≠ '\n' := fun e => h (by simp [e])
    have ha : '\n' ∉ a := fun e => h (by simp [e])
    exact splitLines_cons_other hc (ih ha)

theorem byteLen_replicate (n : Nat) (c : Char) :
    byteLen (List.replicate n c) = n * c.utf8Size := by
  induction n with
  | zero => simp [byteLen_nil]
  | succ n ih => rw [List.replicate_succ, byteLen_cons, ih]; ring

/-- A line that holds `n` copies of an ASCII character after a prefix does not fit the
buffer of the scanner when `n` is at least `MaxScanTokenSize`. -/
theorem long_replicate (p : Str) (c : Char) (hc : c.utf8Size = 1) :
    MaxScanTokenSize ≤ byteLen (p ++ List.replicate 65536 c) := by
  rw [byteLen_append, byteLen_replicate, hc]
  unfold MaxScanTokenSize
  omega

theorem not_fits_replicate (p : Str) (c : Char) (hc : c.utf8Size = 1) :
    fitsScanner (p ++ List.replicate 65536 c) = false := by
  rw [Bool.eq_false_iff]
  intro h
  exact (fitsScanner_iff _).mp h (long_replicate p c hc)

theorem Parser_noSeparator_fails (reader : Reader) (pre : List Str) (l : Str)
    (post : List Str) (hlines : splitLines reader.data = pre ++ l :: post)
    (hl : noSeparatorLine l)
    (hpre : ∀ x ∈ pre, fitsScanner x = true) (hfit : fitsScanner l = true) :
    (∃ e, Parser reader = .ret (none, some e)) ∧
      ((∀ x ∈ pre, ¬ offendingLine x) →
        Parser reader = .ret (none, some "line is not a key value pair")) :=
  Parser_fail_at reader pre l post _ hlines (lineStep_noSeparator hl) hpre hfit

theorem parseLoop_insert_skip {L : Str} (hL : lineStep L = .skip) :
    ∀ (xs ys : List Str) (out : GoMap),
      parseLoop (xs ++ L :: ys) out = parseLoop (xs ++ ys) out := by
  intro xs
  induction xs with
  | nil => intro ys out; exact parseLoop_cons_skip hL ys out
  | cons x xs ih =>
    intro ys out
    simp only [List.cons_append, parseLoop]
    cases lineStep x with
    | skip => exact ih ys out
    | fail msg => rfl
    | store k v => exact ih ys _
    | panic r => rfl

/-- Inserting a blank line or a comment line that fits the buffer of the scanner leaves
the result of `Parser` unchanged. -/
theorem Parser_insert_inert (r r' : Reader) (xs ys : List Str) (L : Str)
    (h : splitLines r.data = xs ++ ys) (h' : splitLines r'.data = xs ++ L :: ys)
    (hL : TrimSpace L = [] ∨ (TrimSpace L).head? = some '#')
    (hfit : fitsScanner L = true) : Parser r' = Parser r := by
  have hskip : lineStep L = .skip := by
    rw [lineStep_eq_lineSpec]; unfold lineSpec; simp only []; rw [if_pos hL]
  rw [Parser_eq_parseLoop, Parser_eq_parseLoop, h, h']
  by_cases hxs : ∀ x ∈ xs, fitsScanner x = true
  · rw [List.takeWhile_append_of_pos hxs, List.takeWhile_append_of_pos hxs,
      List.takeWhile_cons_of_pos hfit]
    exact parseLoop_insert_skip hskip _ _ _
  · have key : ∀ zs : List Str, (xs ++ zs).takeWhile fitsScanner = xs.takeWhile fitsScanner := by
      intro zs
      rw [List.takeWhile_append]
      rw [if_neg]
      intro hc
      apply hxs
      intro x hx
      have : xs.takeWhile fitsScanner = xs :=
        (List.takeWhile_prefix fitsScanner).eq_of_length hc
      exact (List.takeWhile_eq_self_iff.mp this) x hx
    rw [key, key]

theorem not_mem_append_replicate {p : Str} {c d : Char} (hp : d ∉ p) (hc : d ≠ c) (n : Nat) :
    d ∉ p ++ List.replicate n c := by
  intro h
  rcases List.mem_append.mp h with h | h
  · exact hp h
  · exact hc (List.eq_of_mem_replicate h)

theorem byteLen_le_of_sublist {s t : Str} (h : s.Sublist t) : byteLen s ≤ byteLen t := by
  induction h with
  | slnil => exact Nat.le_refl _
  | cons a _ ih => rw [byteLen_cons]; omega
  | cons₂ a _ ih => rw [byteLen_cons, byteLen_cons]; omega

theorem fitsScanner_of_sublist {s t : Str} (h : s.Sublist t) (ht : fitsScanner t = true) :
    fitsScanner s = true := by
  have := byteLen_le_of_sublist h
  simp only [fitsScanner, decide_eq_true_eq] at ht ⊢
  omega

/-- A text of one line that fits the buffer of the scanner and stores a pair parses to the
map with this pair. -/
theorem Parser_single_line {l k v : Str} (hnl : '\n' ∉ l) (hfit : fitsScanner l = true)
    (hl : lineStep l = .store k v) (err : Option String) :
    Parser ⟨l, err⟩ = .ret (some [(k, v)], none) := by
  rw [Parser_eq_parseLoop]
  show parseLoop ((splitLines l).takeWhile fitsScanner) [] = _
  rw [splitLines_of_not_mem hnl, List.takeWhile_cons_of_pos hfit]
  simp [parseLoop, hl, GoMap.set]

/-- The separator, the candidate key and the candidate value of the line `a S b` whose
first separator is `S`. -/
theorem cand_of_split (a b : Str) (S : Char)
    (hS : (S = '=' ∧ '=' ∉ a) ∨ (S = ':' ∧ ':' ∉ a ∧ '=' ∉ a ∧ '=' ∉ b)) :
    sepOf (a ++ S :: b) = S ∧ candKey (a ++ S :: b) = a ∧ candVal (a ++ S :: b) = b := by
  have hsep : sepOf (a ++ S :: b) = S := by
    unfold sepOf
    rcases hS with ⟨rfl, _⟩ | ⟨rfl, _, h2, h3⟩
    · rw [if_pos (by simp)]
    · rw [if_neg]
      simp only [List.mem_append, List.mem_cons, not_or]
      exact ⟨h2, by decide, h3⟩
  have ha : S ∉ a := by
    rcases hS with ⟨rfl, h⟩ | ⟨rfl, h, _, _⟩ <;> exact h
  refine ⟨hsep, ?_, ?_⟩
  · unfold candKey; rw [hsep]; exact takeWhile_ne_append ha _
  · unfold candVal; rw [hsep, dropWhile_ne_append ha]; rfl

/-! ## Maps -/

theorem get_set (m : GoMap) (k v k' : Str) :
    (m.set k v).get k' = if k = k' then some v else m.get k' := by
  induction m with
  | nil => simp [GoMap.set, GoMap.get]
  | cons e m ih =>
    obtain ⟨a, b⟩ := e
    by_cases ha : a = k
    · subst ha
      by_cases hk : a = k' <;> simp [GoMap.set, GoMap.get, hk]
    · simp only [GoMap.set, ha, if_false, GoMap.get]
      by_cases hk : a = k'
      · subst hk
        have : ¬ k = a := fun e => ha e.symm
        simp [this]
      · simp only [hk, if_false]
        exact ih

theorem mem_set {m : GoMap} {k v : Str} {e : Str × Str} (h : e ∈ m.set k v) :
    e = (k, v) ∨ e ∈ m := by
  induction m with
  | nil => simp [GoMap.set] at h; exact Or.inl h
  | cons x m ih =>
    obtain ⟨a, b⟩ := x
    by_cases ha : a = k
    · simp only [GoMap.set, ha, if_true, List.mem_cons] at h
      rcases h with h | h
      · exact Or.inl h
      · exact Or.inr (List.mem_cons_of_mem _ h)
    · simp only [GoMap.set, ha, if_false, List.mem_cons] at h
      rcases h with h | h
      · exact Or.inr (by simp [h])
      · rcases ih h with h | h
        · exact Or.inl h
        · exact Or.inr (List.mem_cons_of_mem _ h)

theorem keys_set_subset {m : GoMap} {k v a : Str} (h : a ∈ (m.set k v).map Prod.fst) :
    a = k ∨ a ∈ m.map Prod.fst := by
  obtain ⟨e, he, rfl⟩ := List.mem_map.mp h
  rcases mem_set he with h | h
  · left; rw [h]
  · right; exact List.mem_map.mpr ⟨e, h, rfl⟩

/-- Assigning to a key keeps the keys of the map pairwise distinct. -/
theorem nodup_keys_set {m : GoMap} (h : (m.map Prod.fst).Nodup) (k v : Str) :
    ((m.set k v).map Prod.fst).Nodup := by
  induction m with
  | nil => simp [GoMap.set]
  | cons x m ih =>
    obtain ⟨a, b⟩ := x
    simp only [List.map_cons, List.nodup_cons] at h
    by_cases ha : a = k
    · subst ha
      simp only [GoMap.set, if_true, List.map_cons, List.nodup_cons]
      exact h
    · simp only [GoMap.set, ha, if_false, List.map_cons, List.nodup_cons]
      refine ⟨?_, ih h.2⟩
      intro hc
      rcases keys_set_subset hc with h1 | h1
      · exact ha h1
      · exact h.1 h1

/-- In a map with pairwise distinct keys, the pairs are what `get` returns. -/
theorem get_eq_some_iff_mem {m : GoMap} (h : (m.map Prod.fst).Nodup) (k v : Str) :
    m.get k = some v ↔ (k, v) ∈ m := by
  induction m with
  | nil => simp [GoMap.get]
  | cons x m ih =>
    obtain ⟨a, b⟩ := x
    simp only [List.map_cons, List.nodup_cons] at h
    by_cases ha : a = k
    · subst ha
      simp only [GoMap.get, if_true, Option.some.injEq, List.mem_cons, Prod.mk.injEq,
        true_and]
      constructor
      · intro e; exact Or.inl e.symm
      · rintro (e | e)
        · exact e.symm
        · exact absurd (List.mem_map.mpr ⟨(a, v), e, rfl⟩) h.1
    · simp only [GoMap.get, ha, if_false, List.mem_cons, Prod.mk.injEq]
      rw [ih h.2]
      constructor
      · intro e; exact Or.inr e
      · rintro (e | e)
        · exact absurd e.1.symm ha
        · exact e

theorem recordAll_append (out : GoMap) (ps qs : List (Str × Str)) :
    recordAll out (ps ++ qs) = recordAll (recordAll out ps) qs := by
  simp [recordAll, List.foldl_append]

theorem get_recordAll_concat (out : GoMap) (ps : List (Str × Str)) (k v k' : Str) :
    (recordAll out (ps ++ [(k, v)])).get k' =
      if k = k' then some v else (recordAll out ps).get k' := by
  rw [recordAll_append]
  exact get_set _ k v k'

/-- Last write wins: the value found under a key after recording pairs into the empty map
is the value of the last pair with this key. -/
theorem get_recordAll_iff (ps : List (Str × Str)) (k v : Str) :
    (recordAll [] ps).get k = some v ↔
      ∃ pre post, ps = pre ++ (k, v) :: post ∧ ∀ p ∈ post, p.1 ≠ k := by
  induction ps using List.reverseRecOn with
  | nil => simp [recordAll, GoMap.get]
  | append_singleton ps e ih =>
    obtain ⟨a, b⟩ := e
    rw [get_recordAll_concat]
    by_cases ha : a = k
    · subst ha
      simp only [if_true, Option.some.injEq]
      constructor
      · rintro rfl
        exact ⟨ps, [], rfl, by simp⟩
      · rintro ⟨pre, post, he, hpost⟩
        rcases List.eq_nil_or_concat post with rfl | ⟨post', x, rfl⟩
        · have := List.append_inj_right' he (by simp)
          simp only [List.cons.injEq, Prod.mk.injEq, and_true] at this
          exact this.2
        · have e2 : ps ++ [(a, b)] = (pre ++ (a, v) :: post') ++ [x] := by
            rw [he]; simp
          have := List.append_inj_right' e2 (by simp)
          simp only [List.cons.injEq, and_true] at this
          exact absurd (by rw [← this]) (hpost x (by simp))
    · simp only [ha, if_false]
      rw [ih]
      constructor
      · rintro ⟨pre, post, he, hpost⟩
        refine ⟨pre, post ++ [(a, b)], by rw [he]; simp, ?_⟩
        intro p hp
        rcases List.mem_append.mp hp with h | h
        · exact hpost p h
        · rw [List.mem_singleton.mp h]; exact ha
      · rintro ⟨pre, post, he, hpost⟩
        rcases List.eq_nil_or_concat post with rfl | ⟨post', x, rfl⟩
        · have := List.append_inj_right' he (by simp)
          simp only [List.cons.injEq, Prod.mk.injEq, and_true] at this
          exact absurd this.1 ha
        · have e2 : ps ++ [(a, b)] = (pre ++ (k, v) :: post') ++ [x] := by
            rw [he]; simp
          have h1 := List.append_inj_left' e2 (by simp)
          refine ⟨pre, post', h1, ?_⟩
          intro p hp
          exact hpost p (by simp [hp])

theorem last_iff_mem_of_nodup {L : List (Str × Str)} (h : (L.map Prod.fst).Nodup)
    (k v : Str) :
    (∃ pre post, L = pre ++ (k, v) :: post ∧ ∀ p ∈ post, p.1 ≠ k) ↔ (k, v) ∈ L := by
  constructor
  · rintro ⟨pre, post, rfl, _⟩
    simp
  · intro hm
    obtain ⟨pre, post, rfl⟩ := List.append_of_mem hm
    refine ⟨pre, post, rfl, ?_⟩
    intro p hp hk
    rw [List.map_append, List.map_cons, List.nodup_append] at h
    have h2 := h.2.1
    rw [List.nodup_cons] at h2
    exact h2.1 (List.mem_map.mpr ⟨p, hp, hk⟩)

/-- Over lines each of which stores a pair, the loop of `Parser` records the pairs in the
order of the lines. -/
theorem parseLoop_stores {ι : Type} (f : ι → Str) (g : ι → Str × Str) :
    ∀ (ts : List ι) (tail : List Str) (out : GoMap),
      (∀ t ∈ ts, lineStep (f t) = .store (g t).1 (g t).2) →
      parseLoop (ts.map f ++ tail) out = parseLoop tail (recordAll out (ts.map g)) := by
  intro ts
  induction ts with
  | nil => intro tail out _; rfl
  | cons t ts ih =>
    intro tail out h
    have ht := h t (by simp)
    simp only [List.map_cons, List.cons_append, parseLoop, ht]
    exact ih tail _ (fun u hu => h u (by simp [hu]))

theorem trimSpace_sublist (s : Str) : (TrimSpace s).Sublist s :=
  ((List.rdropWhile_prefix isSpace _).sublist).trans (List.dropWhile_suffix isSpace).sublist

theorem not_mem_takeWhile_ne (c : Char) (l : Str) : c ∉ l.takeWhile (fun d => d != c) := by
  intro h
  have := List.mem_takeWhile_imp h
  simp at this

theorem recKey_sublist (line : Str) : (recKey line).Sublist (candKey line) := by
  unfold recKey
  refine (trimSpace_sublist _).trans ?_
  split_ifs
  · exact List.drop_sublist _ _
  · exact List.Sublist.refl _

theorem recVal_sublist (line : Str) : (recVal line).Sublist (candVal line) := by
  unfold recVal
  exact (trimSpace_sublist _).trans (List.takeWhile_prefix _).sublist

theorem eq_not_mem_candKey (line : Str) : '=' ∉ candKey line := by
  unfold candKey sepOf
  by_cases h : '=' ∈ line
  · rw [if_pos h]; exact not_mem_takeWhile_ne _ _
  · rw [if_neg h]; exact fun hc => h ((List.takeWhile_prefix _).subset hc)

/-- A line with a separator is its candidate key, the separator and its candidate value. -/
theorem line_eq_cand {line : Str} (h : ¬ ('=' ∉ line ∧ ':' ∉ line)) :
    line = candKey line ++ sepOf line :: candVal line := by
  have hmem := sepOf_mem h
  unfold candKey candVal
  generalize sepOf line = c at hmem ⊢
  obtain ⟨a, b, rfl, ha⟩ := split_at_first hmem
  rw [takeWhile_ne_append ha, dropWhile_ne_append ha]
  rfl

theorem lineSpec_store {text k v : Str} (h : lineSpec text = .store k v) :
    ¬ ('=' ∉ TrimSpace text ∧ ':' ∉ TrimSpace text) ∧
      k = recKey (TrimSpace text) ∧ v = recVal (TrimSpace text) ∧ k ≠ [] ∧ v ≠ [] := by
  unfold lineSpec at h
  simp only [] at h
  split_ifs at h with h1 h2 h3
  simp only [LineStep.store.injEq] at h
  obtain ⟨rfl, rfl⟩ := h
  exact ⟨h2, rfl, rfl, fun hc => h3 (Or.inl hc), fun hc => h3 (Or.inr hc)⟩

/-- What holds of a pair stored by the loop body for a line without line break that fits
the buffer of the scanner. -/
theorem lineStep_store_inv {text k v : Str} (hnl : '\n' ∉ text)
    (hfit : fitsScanner text = true) (h : lineStep text = .store k v) : StoredPair k v := by
  rw [lineStep_eq_lineSpec] at h
  obtain ⟨hsep, rfl, rfl, hk, hv⟩ := lineSpec_store h
  have hline := line_eq_cand hsep
  have hsubk : (candKey (TrimSpace text)).Sublist text := by
    refine List.Sublist.trans ?_ (trimSpace_sublist text)
    conv_rhs => rw [hline]
    exact List.sublist_append_left _ _
  have hsubv : (candVal (TrimSpace text)).Sublist text := by
    refine List.Sublist.trans ?_ (trimSpace_sublist text)
    conv_rhs => rw [hline]
    exact (List.sublist_cons_self _ _).trans (List.sublist_append_right _ _)
  refine ⟨hk, hv, ?_, ?_, ?_, ?_, ?_, ?_, ?_⟩
  · unfold recKey; exact trimSpace_trimSpace _
  · unfold recVal; exact trimSpace_trimSpace _
  · exact fun hc => eq_not_mem_candKey _ ((recKey_sublist _).subset hc)
  · unfold recVal
    exact fun hc => not_mem_takeWhile_ne '#' _ (mem_of_mem_trimSpace hc)
  · exact fun hc => hnl (hsubk.subset ((recKey_sublist _).subset hc))
  · exact fun hc => hnl (hsubv.subset ((recVal_sublist _).subset hc))
  · have h1 := byteLen_le_of_sublist (recKey_sublist (TrimSpace text))
    have h2 := byteLen_le_of_sublist (recVal_sublist (TrimSpace text))
    have h3 := byteLen_le_of_sublist (trimSpace_sublist text)
    have h4 : byteLen (TrimSpace text) = byteLen (candKey (TrimSpace text)) +
        ((sepOf (TrimSpace text)).utf8Size + byteLen (candVal (TrimSpace text))) := by
      conv_lhs => rw [hline]
      rw [byteLen_append, byteLen_cons]
    have h5 := utf8Size_pos (sepOf (TrimSpace text))
    have h6 : ('=' : Char).utf8Size = 1 := by decide
    simp only [fitsScanner, decide_eq_true_eq, byteLen_append, byteLen_cons, h6] at hfit ⊢
    omega

/-- The loop of `Parser` keeps the keys of the map pairwise distinct and stores only
pairs with the properties of `StoredPair`. -/
theorem parseLoop_inv : ∀ (xs : List Str) (out m : GoMap),
    (∀ x ∈ xs, '\n' ∉ x ∧ fitsScanner x = true) →
    (∀ e ∈ out, StoredPair e.1 e.2) → (out.map Prod.fst).Nodup →
    parseLoop xs out = .ret (some m, none) →
    (∀ e ∈ m, StoredPair e.1 e.2) ∧ (m.map Prod.fst).Nodup := by
  intro xs
  induction xs with
  | nil =>
    intro out m _ hout hnd h
    simp only [parseLoop, Outcome.ret.injEq, Prod.mk.injEq, Option.some.injEq, and_true] at h
    subst h
    exact ⟨hout, hnd⟩
  | cons x xs ih =>
    intro out m hxs hout hnd h
    have hx := hxs x (by simp)
    have hrest : ∀ y ∈ xs, '\n' ∉ y ∧ fitsScanner y = true := fun y hy => hxs y (by simp [hy])
    simp only [parseLoop] at h
    cases hl : lineStep x with
    | skip => rw [hl] at h; exact ih out m hrest hout hnd h
    | fail msg => rw [hl] at h; simp at h
    | panic r => rw [hl] at h; simp at h
    | store k v =>
      rw [hl] at h
      refine ih (out.set k v) m hrest ?_ (nodup_keys_set hnd k v) h
      intro e he
      rcases mem_set he with rfl | he
      · exact lineStep_store_inv hx.1 hx.2 hl
      · exact hout e he

theorem splitLines_no_newline (s : Str) : ∀ l ∈ splitLines s, '\n' ∉ l := by
  induction s with
  | nil => intro l hl; simp [splitLines] at hl; simp [hl]
  | cons c s ih =>
    intro l hl
    by_cases hc : c = '\n'
    · subst hc
      rw [splitLines_cons_newline] at hl
      rcases List.mem_cons.mp hl with rfl | h
      · simp
      · exact ih l h
    · cases hs : splitLines s with
      | nil => exact absurd hs (splitLines_ne_nil s)
      | cons a b =>
        rw [splitLines_cons_other hc hs] at hl
        rw [hs] at ih
        rcases List.mem_cons.mp hl with rfl | h
        · simp only [List.mem_cons, not_or]
          exact ⟨fun e => hc e.symm, ih a (by simp)⟩
        · exact ih l (by simp [h])

/-- The map that `Parser` returns has pairwise distinct keys and holds only pairs with the
properties of `StoredPair`. -/
theorem Parser_inv {reader : Reader} {M : GoMap} (h : Parser reader = .ret (some M, none)) :
    (∀ e ∈ M, StoredPair e.1 e.2) ∧ (M.map Prod.fst).Nodup := by
  rw [Parser_eq_parseLoop] at h
  refine parseLoop_inv _ [] M ?_ (by simp) (by simp) h
  intro x hx
  exact ⟨splitLines_no_newline _ x ((List.takeWhile_prefix _).subset hx),
    List.mem_takeWhile_imp hx⟩

theorem splitLines_serialize (L : List (Str × Str))
    (h : ∀ e ∈ L, '\n' ∉ e.1 ∧ '\n' ∉ e.2) :
    splitLines (serialize L) = L.map (fun e => e.1 ++ '=' :: e.2) ++ [[]] := by
  induction L with
  | nil => rfl
  | cons e L ih =>
    obtain ⟨k, v⟩ := e
    have hkv := h (k, v) (by simp)
    have hnl : '\n' ∉ k ++ '=' :: v := by
      simp only [List.mem_append, List.mem_cons, not_or]
      exact ⟨hkv.1, by decide, hkv.2⟩
    simp only [serialize, List.map_cons, List.cons_append]
    rw [splitLines_append_newline hnl, ih (fun e he => h e (by simp [he]))]

theorem scanErrLoop_append_newline (e : Option String) {a : Str} (h : '\n' ∉ a) (b : Str) :
    ∀ cur, scanErrLoop e (a ++ '\n' :: b) cur =
      if MaxScanTokenSize ≤ byteLen (cur ++ a) then some "bufio.Scanner: token too long"
      else scanErrLoop e b [] := by
  induction a with
  | nil => intro cur; simp [scanErrLoop]
  | cons c a ih =>
    intro cur
    have hc : c ≠ '\n' := fun e => h (by simp [e])
    have ha : '\n' ∉ a := fun e => h (by simp [e])
    have step : scanErrLoop e (c :: (a ++ '\n' :: b)) cur =
        scanErrLoop e (a ++ '\n' :: b) (cur ++ [c]) := by
      simp only [scanErrLoop, hc, if_false]
    show scanErrLoop e (c :: (a ++ '\n' :: b)) cur = _
    rw [step, ih ha (cur ++ [c])]
    simp

/-- A pair stored by `Parser` whose key begins neither with `#` nor with `export` makes
the well-formed line `key=value`. -/
theorem wellFormed_of_stored {k v : Str} (h : StoredPair k v) (hh : k.head? ≠ some '#')
    (he : ¬ "export".toList <+: k) : WellFormedLine k '=' v where
  sep := Or.inl rfl
  key_nonempty := by rw [h.key_trim]; exact h.key_ne
  val_nonempty := by rw [h.val_trim]; exact h.val_ne
  key_no_eq := h.key_no_eq
  colon := fun e => absurd e (by decide)
  val_no_hash := h.val_no_hash
  key_no_hash := by rw [h.key_trim]; exact hh
  key_no_export := by rw [h.key_trim]; exact he

/-! ## Trimmed text, indices and totality -/

theorem trimSpace_head_not_space {s : Str} {c : Char} (h : (TrimSpace s).head? = some c) :
    isSpace c = false := by
  have hne : TrimSpace s ≠ [] := by
    intro hc; rw [hc] at h; simp at h
  have h1 : (s.dropWhile isSpace).head? = some c := by
    rw [ head?_eq_of_prefix (List.rdropWhile_prefix isSpace _) hne]
    exact h
  have h2 := List.head?_dropWhile_not isSpace s
  rw [h1] at h2
  exact h2

theorem trimSpace_last_not_space {s : Str} {c : Char} (h : (TrimSpace s).getLast? = some c) :
    isSpace c = false := by
  have hne : (s.dropWhile isSpace).rdropWhile isSpace ≠ [] := by
    intro hc
    rw [trimSpace_eq, hc] at h
    simp at h
  have h1 := List.rdropWhile_last_not isSpace (s.dropWhile isSpace) hne
  rw [trimSpace_eq, List.getLast?_eq_getLast _ hne] at h
  rw [← Option.some.inj h]
  simpa using h1

/-- A text is its trimmed form between two runs of white space. -/
theorem trimSpace_decomp (s : Str) : ∃ w₁ w₂, s = w₁ ++ TrimSpace s ++ w₂ ∧
    (∀ a ∈ w₁, isSpace a = true) ∧ (∀ a ∈ w₂, isSpace a = true) := by
  obtain ⟨w, hw, hall⟩ := rdropWhile_append_dropped isSpace (s.dropWhile isSpace)
  refine ⟨s.takeWhile isSpace, w, ?_, fun a ha => List.mem_takeWhile_imp ha, hall⟩
  rw [trimSpace_eq, List.append_assoc, ← hw]
  exact (List.takeWhile_append_dropWhile isSpace s).symm

theorem mem_trimSpace_iff {c : Char} (hc : isSpace c = false) (s : Str) :
    c ∈ TrimSpace s ↔ c ∈ s := by
  constructor
  · exact mem_of_mem_trimSpace
  · intro h
    obtain ⟨w₁, w₂, hs, h1, h2⟩ := trimSpace_decomp s
    rw [hs] at h
    simp only [List.mem_append] at h
    rcases h with (h | h) | h
    · have := h1 c h; rw [hc] at this; exact absurd this (by simp)
    · exact h
    · have := h2 c h; rw [hc] at this; exact absurd this (by simp)

theorem count_trimSpace {c : Char} (hc : isSpace c = false) (s : Str) :
    (TrimSpace s).count c = s.count c := by
  obtain ⟨w₁, w₂, hs, h1, h2⟩ := trimSpace_decomp s
  have n1 : c ∉ w₁ := fun h => by
    have := h1 c h; rw [hc] at this; exact absurd this (by simp)
  have n2 : c ∉ w₂ := fun h => by
    have := h2 c h; rw [hc] at this; exact absurd this (by simp)
  conv_rhs => rw [hs]
  rw [List.count_append, List.count_append, List.count_eq_zero_of_not_mem n1,
    List.count_eq_zero_of_not_mem n2]
  omega

theorem index_le_byteLen {s : Str} {c : Char} {i : Nat} (h : Index s c = some i) :
    i ≤ byteLen s := by
  induction s generalizing i with
  | nil => simp [Index] at h
  | cons d s ih =>
    by_cases hd : d = c
    · simp only [Index, hd, if_true, Option.some.injEq] at h
      omega
    · simp only [Index, hd, if_false, Option.map_eq_some'] at h
      obtain ⟨j, hj, rfl⟩ := h
      rw [byteLen_cons]
      have := ih hj
      omega

/-- `Parser` never panics: it returns a map without error, or an error without map. -/
theorem Parser_total (reader : Reader) :
    (∃ m, Parser reader = .ret (some m, none)) ∨ (∃ e, Parser reader = .ret (none, some e)) := by
  rw [Parser_eq_parseLoop]
  exact parseLoop_total _ _

/-- The loop of `Parser` fails only with one of its two errors, and then some line is
offending. -/
theorem parseLoop_fail_offending : ∀ (xs : List Str) (out : GoMap) (e : String),
    parseLoop xs out = .ret (none, some e) → ∃ x ∈ xs, offendingLine x := by
  intro xs
  induction xs with
  | nil => intro out e h; simp [parseLoop] at h
  | cons x xs ih =>
    intro out e h
    by_cases hx : offendingLine x
    · exact ⟨x, by simp, hx⟩
    · simp only [parseLoop] at h
      rcases lineStep_of_not_offending hx with h1 | ⟨k, v, h1⟩
      · rw [h1] at h
        obtain ⟨y, hy, hoff⟩ := ih out e h
        exact ⟨y, by simp [hy], hoff⟩
      · rw [h1] at h
        obtain ⟨y, hy, hoff⟩ := ih _ e h
        exact ⟨y, by simp [hy], hoff⟩

/-- What the loop body does with a line whose trimmed form is `a S b`, split at `S`, and
that is not a comment. -/
theorem lineStep_of_trimmed_split (text a b : Str) (S : Char)
    (hline : TrimSpace text = a ++ S :: b)
    (hS : (S = '=' ∧ '=' ∉ a) ∨ (S = ':' ∧ ':' ∉ a ∧ '=' ∉ a ∧ '=' ∉ b))
    (hc : (TrimSpace text).head? ≠ some '#') :
    lineStep text =
      if TrimSpace (if "export".toList <+: a then a.drop 6 else a) = [] ∨
          TrimSpace (b.takeWhile (fun c => c != '#')) = [] then
        .fail "key val aren't valid"
      else .store (TrimSpace (if "export".toList <+: a then a.drop 6 else a))
        (TrimSpace (b.takeWhile (fun c => c != '#'))) := by
  obtain ⟨_, hck, hcv⟩ := cand_of_split a b S hS
  have hmem : S ∈ a ++ S :: b := by simp
  have hno : ¬ ('=' ∉ TrimSpace text ∧ ':' ∉ TrimSpace text) := by
    rw [hline]
    rintro ⟨h1, h2⟩
    rcases hS with ⟨rfl, _⟩ | ⟨rfl, _⟩
    · exact h1 hmem
    · exact h2 hmem
  have hne : TrimSpace text ≠ [] := by rw [hline]; simp
  rw [lineStep_eq_lineSpec]
  unfold lineSpec
  simp only []
  rw [if_neg (by rintro (h | h); exacts [hne h, hc h]), if_neg hno]
  unfold recKey recVal
  rw [hline, hck, hcv]

/-! ## White space around key and value -/

theorem not_mem_of_spaces {w : Str} (hw : ∀ a ∈ w, isSpace a = true) {c : Char}
    (hc : isSpace c = false) : c ∉ w := by
  intro h
  have := hw c h
  rw [hc] at this
  exact absurd this (by simp)

theorem takeWhile_not_space_append {w : Str} (hw : ∀ a ∈ w, isSpace a = true) (l : Str) :
    (l ++ w).takeWhile (fun c => !isSpace c) = l.takeWhile (fun c => !isSpace c) := by
  induction l with
  | nil =>
    cases w with
    | nil => rfl
    | cons a w =>
      have := hw a (by simp)
      simp [List.takeWhile_cons, this]
  | cons a l ih =>
    simp only [List.cons_append, List.takeWhile_cons, ih]

theorem export_prefix_append_spaces {w : Str} (hw : ∀ a ∈ w, isSpace a = true) (l : Str) :
    "export".toList <+: l ++ w ↔ "export".toList <+: l := by
  have hp : ∀ c ∈ "export".toList, (fun c => !isSpace c) c = true := by decide
  rw [← prefix_takeWhile_iff hp (l ++ w), takeWhile_not_space_append hw,
    prefix_takeWhile_iff hp l]

/-- White space after the candidate key does not change the recorded key. -/
theorem key_append_spaces {w : Str} (hw : ∀ a ∈ w, isSpace a = true) (l : Str) :
    TrimSpace (if "export".toList <+: l ++ w then (l ++ w).drop 6 else l ++ w) =
      TrimSpace (if "export".toList <+: l then l.drop 6 else l) := by
  by_cases he : "export".toList <+: l
  · rw [if_pos ((export_prefix_append_spaces hw l).mpr he), if_pos he]
    have hlen : 6 ≤ l.length := by
      have := he.length_le
      have h6 : "export".toList.length = 6 := by decide
      omega
    rw [List.drop_append_of_le_length hlen, trimSpace_append_spaces _ hw]
  · rw [if_neg (fun hc => he ((export_prefix_append_spaces hw l).mp hc)), if_neg he,
      trimSpace_append_spaces _ hw]

/-- White space after a text stays after the text when the leading white space is
dropped, unless the text is all white space. -/
theorem dropWhile_append_spaces {w : Str} (hw : ∀ a ∈ w, isSpace a = true) (K : Str) :
    ∃ w', (∀ a ∈ w', isSpace a = true) ∧
      (K ++ w).dropWhile isSpace = K.dropWhile isSpace ++ w' ∧
      (K.dropWhile isSpace = [] → w' = []) := by
  rw [List.dropWhile_append]
  by_cases hk : (K.dropWhile isSpace).isEmpty = true
  · rw [if_pos hk]
    have h1 : K.dropWhile isSpace = [] := List.isEmpty_iff.mp hk
    have h2 : w.dropWhile isSpace = [] := List.dropWhile_eq_nil_iff.mpr hw
    exact ⟨[], by simp, by rw [h1, h2]; rfl, fun _ => rfl⟩
  · rw [if_neg hk]
    exact ⟨w, hw, rfl, fun h => absurd (List.isEmpty_iff.mpr h) hk⟩

/-- White space around the candidate value does not change the recorded value. -/
theorem value_padded (V : Str) {w₃ w₄ : Str} (h3 : ∀ a ∈ w₃, isSpace a = true)
    (h4 : ∀ a ∈ w₄, isSpace a = true) :
    TrimSpace ((w₃ ++ V ++ w₄).takeWhile (fun c => c != '#')) =
      TrimSpace (V.takeWhile (fun c => c != '#')) := by
  have hp : ∀ a ∈ w₃, (fun c => c != '#') a = true := by
    intro a ha
    simp only [bne_iff_ne, ne_eq]
    rintro rfl
    exact not_mem_of_spaces h3 (by decide) ha
  rw [List.append_assoc, List.takeWhile_append_of_pos hp, trimSpace_spaces_append h3]
  by_cases hh : '#' ∈ V
  · obtain ⟨a, b, rfl, ha⟩ := split_at_first hh
    have e : a ++ '#' :: b ++ w₄ = a ++ '#' :: (b ++ w₄) := by simp
    rw [e, takeWhile_ne_append ha, takeWhile_ne_append ha]
  · have h' : '#' ∉ V ++ w₄ := by
      simp only [List.mem_append, not_or]
      exact ⟨hh, not_mem_of_spaces h4 (by decide)⟩
    rw [takeWhile_ne_of_not_mem hh, takeWhile_ne_of_not_mem h', trimSpace_append_spaces _ h4]

/-- White space around the line, the key and the value of a line `K S V` that is split at
`S` does not change what the loop body does. -/
theorem lineStep_padded (K V w₁ w₂ w₃ w₄ : Str) (S : Char) (hS : S = '=' ∨ S = ':')
    (hK : S ∉ K) (hEq : S = ':' → '=' ∉ K ∧ '=' ∉ V)
    (h1 : ∀ a ∈ w₁, isSpace a = true) (h2 : ∀ a ∈ w₂, isSpace a = true)
    (h3 : ∀ a ∈ w₃, isSpace a = true) (h4 : ∀ a ∈ w₄, isSpace a = true) :
    lineStep (w₁ ++ K ++ w₂ ++ S :: (w₃ ++ V ++ w₄)) = lineStep (K ++ S :: V) := by
  have hsp : isSpace S = false := by rcases hS with rfl | rfl <;> decide
  have hK' : S ∉ w₁ ++ K ++ w₂ := by
    simp only [List.mem_append, not_or]
    exact ⟨⟨not_mem_of_spaces h1 hsp, hK⟩, not_mem_of_spaces h2 hsp⟩
  have hEq' : S = ':' → '=' ∉ w₁ ++ K ++ w₂ ∧ '=' ∉ w₃ ++ V ++ w₄ := by
    intro e
    simp only [List.mem_append, not_or]
    exact ⟨⟨⟨not_mem_of_spaces h1 (by decide), (hEq e).1⟩, not_mem_of_spaces h2 (by decide)⟩,
      ⟨not_mem_of_spaces h3 (by decide), (hEq e).2⟩, not_mem_of_spaces h4 (by decide)⟩
  obtain ⟨w', hw', hdrop, hnil⟩ := dropWhile_append_spaces h2 K
  have hkl : (w₁ ++ K ++ w₂).dropWhile isSpace = K.dropWhile isSpace ++ w' := by
    rw [List.append_assoc, List.dropWhile_append_of_pos h1, hdrop]
  have hhead : (K.dropWhile isSpace ++ w').head? = (K.dropWhile isSpace).head? := by
    cases hk : K.dropWhile isSpace with
    | nil => rw [hnil hk]; rfl
    | cons a l => rfl
  rw [lineStep_of_split _ _ S hS hK' hEq', lineStep_of_split K V S hS hK hEq, hkl, hhead,
    key_append_spaces hw', value_padded V h3 h4]

/-! ## The environment and `Load` -/

theorem Setenv_snd_indep (env env' : Env) (k v : Str) :
    (Setenv env k v).2 = (Setenv env' k v).2 := by
  unfold Setenv
  split_ifs <;> rfl

theorem Setenv_ok {env : Env} {k v : Str} (h : (Setenv env k v).2 = none) :
    Setenv env k v = (GoMap.set env k v, none) := by
  unfold Setenv at h ⊢
  split_ifs at h ⊢
  rfl

/-- When `os.Setenv` accepts every pair, the loop of `loadFile` over the pairs sets them
all, one after the other. -/
theorem setAll_ok : ∀ (L : List (Str × Str)) (env : Env),
    (∀ e ∈ L, ∀ env', (Setenv env' e.1 e.2).2 = none) →
    setAll L env = (recordAll env L, none) := by
  intro L
  induction L with
  | nil => intro env _; rfl
  | cons e L ih =>
    intro env h
    obtain ⟨k, v⟩ := e
    have hk := Setenv_ok (h (k, v) (by simp) env)
    simp only [setAll, hk]
    exact ih _ (fun e he => h e (by simp [he]))

theorem set_eq_self {m : GoMap} {k v : Str} (h : m.get k = some v) : m.set k v = m := by
  induction m with
  | nil => simp [GoMap.get] at h
  | cons e m ih =>
    obtain ⟨a, b⟩ := e
    by_cases ha : a = k
    · subst ha
      simp only [GoMap.get, if_true, Option.some.injEq] at h
      simp [GoMap.set, h]
    · simp only [GoMap.get, ha, if_false] at h
      simp only [GoMap.set, ha, if_false, ih h]

theorem recordAll_eq_self : ∀ (L : List (Str × Str)) (env : GoMap),
    (∀ e ∈ L, env.get e.1 = some e.2) → recordAll env L = env := by
  intro L
  induction L with
  | nil => intro env _; rfl
  | cons e L ih =>
    intro env h
    have he := set_eq_self (h e (by simp))
    show recordAll (env.set e.1 e.2) L = env
    rw [he]
    exact ih env (fun x hx => h x (by simp [hx]))

/-- After recording pairs with pairwise distinct keys, every recorded pair is found. -/
theorem get_recordAll_of_mem (out : GoMap) (L : List (Str × Str))
    (hnd : (L.map Prod.fst).Nodup) {k v : Str} (h : (k, v) ∈ L) :
    (recordAll out L).get k = some v := by
  induction L using List.reverseRecOn with
  | nil => simp at h
  | append_singleton L e ih =>
    obtain ⟨a, b⟩ := e
    rw [get_recordAll_concat]
    rw [List.map_append, List.nodup_append] at hnd
    rcases List.mem_append.mp h with h1 | h1
    · have hne : ¬ a = k := by
        intro hak
        subst hak
        exact hnd.2.2 (List.mem_map.mpr ⟨(a, v), h1, rfl⟩) (by simp)
      rw [if_neg hne]
      exact ih hnd.1 h1
    · simp only [List.mem_singleton, Prod.mk.injEq] at h1
      rw [if_pos h1.1.symm, h1.2]

theorem loadFile_of_fileError {fs : FileSystem} {f : Str} {e : String}
    (order : GoMap → List (Str × Str)) (env : Env) (h : fileError fs f = some e) :
    loadFile fs order f env = .ret (env, some e) := by
  unfold fileError at h
  unfold loadFile
  cases hfs : fs f with
  | error err =>
    rw [hfs] at h
    simp only [Option.some.injEq] at h
    simp only [h]
  | ok file =>
    rw [hfs] at h
    simp only [] at h ⊢
    rcases Parser_total file with ⟨m, hm⟩ | ⟨e', he'⟩
    · rw [hm] at h; simp at h
    · rw [he'] at h ⊢
      simp only [Option.some.injEq] at h
      simp only [h]

theorem loadFile_of_no_fileError {fs : FileSystem} {f : Str}
    (order : GoMap → List (Str × Str)) (env : Env) (h : fileError fs f = none) :
    ∃ file m, fs f = .ok file ∧ Parser file = .ret (some m, none) ∧
      loadFile fs order f env = .ret (setAll (order m) env) := by
  unfold fileError at h
  unfold loadFile
  cases hfs : fs f with
  | error err => rw [hfs] at h; simp at h
  | ok file =>
    rw [hfs] at h
    simp only [] at h ⊢
    rcases Parser_total file with ⟨m, hm⟩ | ⟨e', he'⟩
    · exact ⟨file, m, rfl, hm, by rw [hm]; rfl⟩
    · rw [he'] at h; simp at h

theorem fileError_of_loadFile_ok {fs : FileSystem} {f : Str}
    {order : GoMap → List (Str × Str)} {env env' : Env}
    (h : loadFile fs order f env = .ret (env', none)) : fileError fs f = none := by
  cases hfe : fileError fs f with
  | none => rfl
  | some e =>
    rw [loadFile_of_fileError order env hfe] at h
    simp at h

theorem loadFiles_cons_ok {fs : FileSystem} {order : GoMap → List (Str × Str)} {f : Str}
    {env env' : Env} (h : loadFile fs order f env = .ret (env', none)) (rest : List Str) :
    loadFiles fs order (f :: rest) env = loadFiles fs order rest env' := by
  simp only [loadFiles, h]

theorem loadFiles_cons_err {fs : FileSystem} {order : GoMap → List (Str × Str)} {f : Str}
    {env env' : Env} {e : String} (h : loadFile fs order f env = .ret (env', some e))
    (rest : List Str) :
    loadFiles fs order (f :: rest) env = .ret (env', some e) := by
  simp only [loadFiles, h]

theorem loadFiles_cons_panic {fs : FileSystem} {order : GoMap → List (Str × Str)} {f : Str}
    {env : Env} {r : String} (h : loadFile fs order f env = .panic r) (rest : List Str) :
    loadFiles fs order (f :: rest) env = .panic r := by
  simp only [loadFiles, h]

/-- What `loadFiles` does with the first file: it goes on with the next file after a
`loadFile` without error, and ends with the result of `loadFile` otherwise. -/
theorem loadFiles_cons_cases (fs : FileSystem) (order : GoMap → List (Str × Str)) (f : Str)
    (rest : List Str) (env : Env) :
    (∃ env', loadFile fs order f env = .ret (env', none) ∧
      loadFiles fs order (f :: rest) env = loadFiles fs order rest env') ∨
    (∃ env' e, loadFile fs order f env = .ret (env', some e) ∧
      loadFiles fs order (f :: rest) env = .ret (env', some e)) ∨
    (∃ r, loadFile fs order f env = .panic r ∧
      loadFiles fs order (f :: rest) env = .panic r) := by
  cases h : loadFile fs order f env with
  | panic r => exact Or.inr (Or.inr ⟨r, rfl, loadFiles_cons_panic h rest⟩)
  | ret p =>
    obtain ⟨env', o⟩ := p
    cases o with
    | none => exact Or.inl ⟨env', rfl, loadFiles_cons_ok h rest⟩
    | some e => exact Or.inr (Or.inl ⟨env', e, rfl, loadFiles_cons_err h rest⟩)

theorem loadFiles_singleton (fs : FileSystem) (order : GoMap → List (Str × Str)) (f : Str)
    (env : Env) : loadFiles fs order [f] env = loadFile fs order f env := by
  rcases loadFiles_cons_cases fs order f [] env with ⟨env', h1, h2⟩ | ⟨env', e, h1, h2⟩ |
    ⟨r, h1, h2⟩
  · rw [h2, h1]; rfl
  · rw [h2, h1]
  · rw [h2, h1]

theorem Load_eq_loadFiles (fs : FileSystem) (order : GoMap → List (Str × Str))
    (names : List Str) (env : Env) :
    Load fs order names env = loadFiles fs order (effectiveFiles names) env := by
  unfold Load effectiveFiles
  split_ifs
  · rw [loadFiles_singleton]
  · rfl

theorem effectiveFiles_of_ne_nil {names : List Str} (h : names ≠ []) :
    effectiveFiles names = names := by
  unfold effectiveFiles
  rw [if_neg]
  intro hc
  exact h (List.length_eq_zero.mp hc)

theorem loadFiles_append_ok (fs : FileSystem) (order : GoMap → List (Str × Str)) :
    ∀ (pre rest : List Str) (env envPre : Env),
      loadFiles fs order pre env = .ret (envPre, none) →
      loadFiles fs order (pre ++ rest) env = loadFiles fs order rest envPre := by
  intro pre
  induction pre with
  | nil =>
    intro rest env envPre h
    simp only [loadFiles, Outcome.ret.injEq, Prod.mk.injEq, and_true] at h
    rw [h]; rfl
  | cons g pre ih =>
    intro rest env envPre h
    rw [List.cons_append]
    rcases loadFiles_cons_cases fs order g pre env with ⟨env', h1, h2⟩ | ⟨env', e, _, h2⟩ |
      ⟨r, _, h2⟩
    · rw [h2] at h
      rw [loadFiles_cons_ok h1]
      exact ih rest env' envPre h
    · rw [h2] at h; simp at h
    · rw [h2] at h; simp at h

/-- When the files before `f` load without error and `f` fails to open or to parse,
`loadFiles` returns the error of `f` and the environment left by the files before `f`. -/
theorem loadFiles_fail_at (fs : FileSystem) (order : GoMap → List (Str × Str))
    (pre : List Str) (f : Str) (post : List Str) (env envPre : Env) (e : String)
    (hpre : loadFiles fs order pre env = .ret (envPre, none))
    (hf : fileError fs f = some e) :
    loadFiles fs order (pre ++ f :: post) env = .ret (envPre, some e) := by
  rw [loadFiles_append_ok fs order pre _ env envPre hpre]
  exact loadFiles_cons_err (loadFile_of_fileError order envPre hf) post

theorem loadFiles_ok_fileError (fs : FileSystem) (order : GoMap → List (Str × Str)) :
    ∀ (files : List Str) (env env' : Env),
      loadFiles fs order files env = .ret (env', none) →
      ∀ g ∈ files, fileError fs g = none := by
  intro files
  induction files with
  | nil => intro env env' _ g hg; simp at hg
  | cons f rest ih =>
    intro env env' h g hg
    rcases loadFiles_cons_cases fs order f rest env with ⟨env1, h1, h2⟩ | ⟨env1, e, _, h2⟩ |
      ⟨r, _, h2⟩
    · rw [h2] at h
      rcases List.mem_cons.mp hg with rfl | hg
      · exact fileError_of_loadFile_ok h1
      · exact ih env1 env' h g hg
    · rw [h2] at h; simp at h
    · rw [h2] at h; simp at h

/-- When every file opens and parses and `os.Setenv` accepts every pair, `loadFiles`
returns without error. -/
theorem loadFiles_ok_of (fs : FileSystem) (order : GoMap → List (Str × Str))
    (horder : ∀ m, (order m).Perm m) :
    ∀ (files : List Str) (env : Env),
      (∀ g ∈ files, fileError fs g = none) →
      (∀ g ∈ files, ∀ file m, fs g = .ok file → Parser file = .ret (some m, none) →
        ∀ e ∈ m, ∀ env', (Setenv env' e.1 e.2).2 = none) →
      ∃ env', loadFiles fs order files env = .ret (env', none) := by
  intro files
  induction files with
  | nil => intro env _ _; exact ⟨env, rfl⟩
  | cons f rest ih =>
    intro env hfe hSet
    obtain ⟨file, m, hfs, hP, hload⟩ := loadFile_of_no_fileError order env (hfe f (by simp))
    have hs : setAll (order m) env = (recordAll env (order m), none) :=
      setAll_ok _ env (fun e he env' =>
        hSet f (by simp) file m hfs hP e ((horder m).subset he) env')
    rw [hs] at hload
    rw [loadFiles_cons_ok hload]
    exact ih _ (fun g hg => hfe g (by simp [hg])) (fun g hg => hSet g (by simp [hg]))

theorem loadFile_congr {fs fs' : FileSystem} {f : Str} (h : fs' f = fs f)
    (order : GoMap → List (Str × Str)) (env : Env) :
    loadFile fs' order f env = loadFile fs order f env := by
  unfold loadFile
  rw [h]

/-- The result of `loadFiles` depends on the file system only through the files of the
list. -/
theorem loadFiles_congr {fs fs' : FileSystem} (order : GoMap → List (Str × Str)) :
    ∀ (files : List Str) (env : Env), (∀ g ∈ files, fs' g = fs g) →
      loadFiles fs' order files env = loadFiles fs order files env := by
  intro files
  induction files with
  | nil => intro env _; rfl
  | cons f rest ih =>
    intro env h
    have hf := loadFile_congr (h f (by simp)) order env
    have hrest : ∀ g ∈ rest, fs' g = fs g := fun g hg => h g (by simp [hg])
    rcases loadFiles_cons_cases fs order f rest env with ⟨env1, h1, h2⟩ | ⟨env1, e, h1, h2⟩ |
      ⟨r, h1, h2⟩
    · rw [h2, loadFiles_cons_ok (hf.trans h1)]
      exact ih env1 hrest
    · rw [h2, loadFiles_cons_err (hf.trans h1)]
    · rw [h2, loadFiles_cons_panic (hf.trans h1)]

theorem fileError_congr {fs fs' : FileSystem} {f : Str} (h : fs' f = fs f) :
    fileError fs' f = fileError fs f := by
  unfold fileError
  rw [h]

/-! ## Last write wins, and concatenation of texts -/

/-- When the loop of `Parser` succeeds, its map is made of the pairs stored for the lines,
recorded in order; and the loop succeeds from every other map too. -/
theorem parseLoop_ok_eq : ∀ (xs : List Str) (out m : GoMap),
    parseLoop xs out = .ret (some m, none) →
    m = recordAll out (storedPairs xs) ∧
      ∀ out', parseLoop xs out' = .ret (some (recordAll out' (storedPairs xs)), none) := by
  intro xs
  induction xs with
  | nil =>
    intro out m h
    simp only [parseLoop, Outcome.ret.injEq, Prod.mk.injEq, Option.some.injEq, and_true] at h
    exact ⟨h.symm, fun _ => rfl⟩
  | cons x xs ih =>
    intro out m h
    simp only [parseLoop] at h
    cases hx : lineStep x with
    | skip =>
      rw [hx] at h
      obtain ⟨h1, h2⟩ := ih out m h
      simp only [storedPairs, hx, parseLoop]
      exact ⟨h1, h2⟩
    | fail msg => rw [hx] at h; simp at h
    | panic r => rw [hx] at h; simp at h
    | store k v =>
      rw [hx] at h
      obtain ⟨h1, h2⟩ := ih _ m h
      simp only [storedPairs, hx, parseLoop]
      exact ⟨h1, fun out' => h2 _⟩

/-- Last write wins, for every input whose lines fit the buffer of the scanner: in the
map that `Parser` returns, a key has the value of the last line that stores this key. -/
theorem Parser_last_write_wins (reader : Reader) (m : GoMap)
    (hfit : ∀ l ∈ splitLines reader.data, fitsScanner l = true)
    (h : Parser reader = .ret (some m, none)) (k v : Str) :
    m.get k = some v ↔
      ∃ pre post, storedPairs (splitLines reader.data) = pre ++ (k, v) :: post ∧
        ∀ p ∈ post, p.1 ≠ k := by
  rw [Parser_eq_parseLoop, List.takeWhile_eq_self_iff.mpr hfit] at h
  rw [(parseLoop_ok_eq _ [] m h).1]
  exact get_recordAll_iff _ k v

theorem get_recordAll_out (out : GoMap) (ps : List (Str × Str)) (k : Str) :
    (∀ v, (recordAll [] ps).get k = some v → (recordAll out ps).get k = some v) ∧
      ((recordAll [] ps).get k = none → (recordAll out ps).get k = out.get k) := by
  induction ps using List.reverseRecOn with
  | nil =>
    constructor
    · intro v h; simp [recordAll, GoMap.get] at h
    · intro _; rfl
  | append_singleton ps e ih =>
    obtain ⟨a, b⟩ := e
    rw [get_recordAll_concat, get_recordAll_concat]
    by_cases ha : a = k
    · simp only [ha, if_true]
      exact ⟨fun v h => h, fun h => by simp at h⟩
    · simp only [ha, if_false]
      exact ih

theorem splitLines_append (a b : Str) :
    splitLines (a ++ '\n' :: b) = splitLines a ++ splitLines b := by
  induction a with
  | nil => rw [List.nil_append, splitLines_cons_newline]; rfl
  | cons c a ih =>
    by_cases hc : c = '\n'
    · subst hc
      rw [List.cons_append, splitLines_cons_newline, splitLines_cons_newline, ih]
      rfl
    · cases hs : splitLines a with
      | nil => exact absurd hs (splitLines_ne_nil a)
      | cons l ls =>
        rw [hs] at ih
        rw [List.cons_append, splitLines_cons_other hc ih, splitLines_cons_other hc hs]
        rfl

/-- Parsing distributes over concatenation when the lines of the first text fit the
buffer of the scanner: the map of the concatenation is the right-biased union of the
maps of the two texts. -/
theorem Parser_concat (a b : Str) (Ma Mb : GoMap)
    (hfit : ∀ l ∈ splitLines a, fitsScanner l = true)
    (ha : Parser (NewReader a) = .ret (some Ma, none))
    (hb : Parser (NewReader b) = .ret (some Mb, none)) :
    ∃ M, Parser (NewReader (a ++ '\n' :: b)) = .ret (some M, none) ∧
      (∀ k v, Mb.get k = some v → M.get k = some v) ∧
      (∀ k, Mb.get k = none → M.get k = Ma.get k) := by
  rw [Parser_eq_parseLoop] at ha hb
  simp only [NewReader] at ha hb
  rw [List.takeWhile_eq_self_iff.mpr hfit] at ha
  obtain ⟨hMb, hany⟩ := parseLoop_ok_eq _ [] Mb hb
  refine ⟨recordAll Ma (storedPairs ((splitLines b).takeWhile fitsScanner)), ?_, ?_, ?_⟩
  · rw [Parser_eq_parseLoop]
    simp only [NewReader]
    rw [splitLines_append, List.takeWhile_append_of_pos hfit,
      parseLoop_append_ok _ _ [] Ma ha]
    exact hany Ma
  · intro k v hv
    rw [hMb] at hv
    exact (get_recordAll_out Ma _ k).1 v hv
  · intro k hk
    rw [hMb] at hk
    exact (get_recordAll_out Ma _ k).2 hk

/-! ## The environment after `Load` -/

/-- After the pairs of a map have been recorded in any order, a key of the map has the
value of the map, and every other key has the value it had before. -/
theorem get_recordAll_perm (out : GoMap) {L : List (Str × Str)} {m : GoMap} (hL : L.Perm m)
    (hnd : (m.map Prod.fst).Nodup) (k : Str) :
    (∀ v, m.get k = some v → (recordAll out L).get k = some v) ∧
      (m.get k = none → (recordAll out L).get k = out.get k) := by
  have hndL : (L.map Prod.fst).Nodup := (hL.map Prod.fst).nodup_iff.mpr hnd
  have hnil : ∀ v, (recordAll [] L).get k = some v ↔ m.get k = some v := by
    intro v
    rw [get_recordAll_iff, last_iff_mem_of_nodup hndL, get_eq_some_iff_mem hnd]
    exact hL.mem_iff
  constructor
  · intro v hv
    exact (get_recordAll_out out L k).1 v ((hnil v).mpr hv)
  · intro hm
    apply (get_recordAll_out out L k).2
    cases h : (recordAll [] L).get k with
    | none => rfl
    | some v =>
      have := (hnil v).mp h
      rw [hm] at this
      exact absurd this (by simp)

theorem parsedMap_eq {fs : FileSystem} {f : Str} {file : Reader} {m : GoMap}
    (hfs : fs f = .ok file) (hP : Parser file = .ret (some m, none)) :
    parsedMap fs f = m := by
  unfold parsedMap
  rw [hfs]
  simp only [hP]

/-- When every file opens and parses and `os.Setenv` accepts every pair, `loadFiles`
returns without error and leaves every variable with the value given by the last file
that holds it, and with its value of before the call when no file holds it. -/
theorem loadFiles_ok_value (fs : FileSystem) (order : GoMap → List (Str × Str))
    (horder : ∀ m, (order m).Perm m) :
    ∀ (files : List Str) (env : Env),
      (∀ g ∈ files, fileError fs g = none) →
      (∀ g ∈ files, ∀ file m, fs g = .ok file → Parser file = .ret (some m, none) →
        ∀ e ∈ m, ∀ env', (Setenv env' e.1 e.2).2 = none) →
      ∃ env', loadFiles fs order files env = .ret (env', none) ∧
        ∀ k, LookupEnv env' k = valueAfter env (files.map (parsedMap fs)) k := by
  intro files
  induction files with
  | nil => intro env _ _; exact ⟨env, rfl, fun k => rfl⟩
  | cons f rest ih =>
    intro env hfe hSet
    obtain ⟨file, m, hfs, hP, hload⟩ := loadFile_of_no_fileError order env (hfe f (by simp))
    have hs : setAll (order m) env = (recordAll env (order m), none) :=
      setAll_ok _ env (fun e he env' =>
        hSet f (by simp) file m hfs hP e ((horder m).subset he) env')
    rw [hs] at hload
    obtain ⟨env', hrest, hval⟩ := ih (recordAll env (order m))
      (fun g hg => hfe g (by simp [hg])) (fun g hg => hSet g (by simp [hg]))
    refine ⟨env', by rw [loadFiles_cons_ok hload]; exact hrest, ?_⟩
    intro k
    have hnd : (m.map Prod.fst).Nodup := (Parser_inv hP).2
    have hrec := get_recordAll_perm env (horder m) hnd k
    rw [hval k, List.map_cons, parsedMap_eq hfs hP]
    unfold valueAfter
    simp only [lastValue]
    cases h1 : lastValue (rest.map (parsedMap fs)) k with
    | some v => rfl
    | none =>
      simp only [LookupEnv]
      cases h2 : m.get k with
      | some v => exact hrec.1 v h2
      | none => exact hrec.2 h2

/-! ## The claims -/

/-- C2 (the code departs from the claim).  The line `KEY71#value71` is a line without
separator, and it is the first offending line of the text whose first line is `A=`
followed by 65536 characters `v`.  The first line does not fit the buffer of the scanner,
`Scan` returns false, `scanner.Err()` is not consulted, and `Parser` returns the empty
map without error instead of the no-separator error. -/
theorem Parser_long_line_hides_missing_separator :
    noSeparatorLine "KEY71#value71".toList ∧
      Parser (NewReader ("A=".toList ++ List.replicate 65536 'v' ++
        '\n' :: "KEY71#value71\n".toList)) = .ret (some [], none) := by
  constructor
  · unfold noSeparatorLine; decide
  · have hnl : '\n' ∉ "A=".toList ++ List.replicate 65536 'v' :=
      not_mem_append_replicate (by decide) (by decide) _
    have hfit : ¬ fitsScanner ("A=".toList ++ List.replicate 65536 'v') = true := by
      rw [not_fits_replicate _ _ (by decide)]; simp
    rw [Parser_eq_parseLoop]
    show parseLoop ((splitLines (("A=".toList ++ List.replicate 65536 'v') ++
      '\n' :: "KEY71#value71\n".toList)).takeWhile fitsScanner) [] = _
    rw [splitLines_append_newline hnl, List.takeWhile_cons_of_neg hfit]
    rfl

/-- A line with an invalid pair makes `Parser` fail, provided the line and the lines
before it fit the buffer of the scanner: when a text holds a line that is not blank, is
not a comment, has a separator and has an empty recorded key or an empty recorded value,
`Parser` returns no map; when no earlier line is offending, the error is the
invalid-pair error.  The lines `=value`, `KEY=`, `KEY:` and `KEY= # note` are such
lines. -/
theorem Parser_invalidPair_fails (reader : Reader) (pre : List Str) (l : Str)
    (post : List Str) (hlines : splitLines reader.data = pre ++ l :: post)
    (hl : invalidPairLine l)
    (hpre : ∀ x ∈ pre, fitsScanner x = true) (hfit : fitsScanner l = true) :
    ((∃ e, Parser reader = .ret (none, some e)) ∧
      ((∀ x ∈ pre, ¬ offendingLine x) →
        Parser reader = .ret (none, some "key val aren't valid"))) ∧
    (invalidPairLine "=value".toList ∧ invalidPairLine "KEY=".toList ∧
      invalidPairLine "KEY:".toList ∧ invalidPairLine "KEY= # note".toList) := by
  refine ⟨Parser_fail_at reader pre l post _ hlines (lineStep_invalidPair hl) hpre hfit, ?_⟩
  unfold invalidPairLine emptyKeyOrValueLine
  decide

/-- C3 (the code departs from the claim).  The line `KEY=` has a separator and an empty
value, it is not a comment, and it is the first offending line of the text whose first
line is `A=` followed by 65536 characters `v`.  The first line does not fit the buffer
of the scanner, `Scan` returns false, `scanner.Err()` is not consulted, and `Parser`
returns the empty map without error instead of the invalid-pair error. -/
theorem Parser_long_line_hides_invalid_pair :
    invalidPairLine "KEY=".toList ∧
      lineStep "KEY=".toList = .fail "key val aren't valid" ∧
      Parser (NewReader ("A=".toList ++ List.replicate 65536 'v' ++
        '\n' :: "KEY=\n".toList)) = .ret (some [], none) := by
  refine ⟨by decide, by decide, ?_⟩
  have hnl : '\n' ∉ "A=".toList ++ List.replicate 65536 'v' :=
    not_mem_append_replicate (by decide) (by decide) _
  have hfit : ¬ fitsScanner ("A=".toList ++ List.replicate 65536 'v') = true := by
    rw [not_fits_replicate _ _ (by decide)]; simp
  rw [Parser_eq_parseLoop]
  show parseLoop ((splitLines (("A=".toList ++ List.replicate 65536 'v') ++
    '\n' :: "KEY=\n".toList)).takeWhile fitsScanner) [] = _
  rw [splitLines_append_newline hnl, List.takeWhile_cons_of_neg hfit]
  rfl

/-- C4 (the code departs from the claim).  The line that holds `#` followed by 65536
characters `x` is a comment line.  On the text `KEY71#value71` `Parser` fails with the
no-separator error; with the comment line inserted before that line, `Parser` returns
the empty map without error: the inserted line does not fit the buffer of the scanner,
`Scan` returns false and `scanner.Err()` is not consulted. -/
theorem long_comment_line_is_not_inert :
    (TrimSpace ('#' :: List.replicate 65536 'x')).head? = some '#' ∧
      Parser (NewReader "KEY71#value71".toList) =
        .ret (none, some "line is not a key value pair") ∧
      Parser (NewReader ('#' :: List.replicate 65536 'x' ++ '\n' :: "KEY71#value71".toList)) =
        .ret (some [], none) := by
  refine ⟨?_, by decide, ?_⟩
  · have := trimSpace_around (x := '#') (by decide) [] (List.replicate 65536 'x')
    simp only [List.nil_append] at this
    rw [this]
    rfl
  · have hnl : '\n' ∉ ['#'] ++ List.replicate 65536 'x' :=
      not_mem_append_replicate (by decide) (by decide) _
    have hfit : ¬ fitsScanner (['#'] ++ List.replicate 65536 'x') = true := by
      rw [not_fits_replicate _ _ (by decide)]; simp
    rw [Parser_eq_parseLoop]
    show parseLoop ((splitLines ((['#'] ++ List.replicate 65536 'x') ++
      '\n' :: "KEY71#value71".toList)).takeWhile fitsScanner) [] = _
    rw [splitLines_append_newline hnl, List.takeWhile_cons_of_neg hfit]
    rfl

/-- C5 (counterexample to the claim as stated).  With the separator `:` and a comment
that holds `=`, the line `KEY:value #a=b` is split at the `=` of the comment and gives
the pair `KEY:value #a` -> `b`, not the pair `KEY` -> `value` of the line `KEY:value`. -/
theorem equals_sign_in_comment_moves_the_split :
    Unmarshal "KEY:value #a=b".toList =
        .ret (some [("KEY:value #a".toList, "b".toList)], none) ∧
      Unmarshal "KEY:value".toList = .ret (some [("KEY".toList, "value".toList)], none) :=
  ⟨by decide, by decide⟩

/-- C5 (amended).  Let `S` be a separator, `K` a key that does not hold `S`, `V` a value
without `#`, `W` white space and `C` a comment, where for the separator `:` none of
`K`, `V`, `C` holds `=`.  The loop body of `Parser` does the same with the line
`K S V W #C` as with the line `K S V`.  When `K S V` is well formed, both lines store the
pair trimmed `K` -> trimmed `V`, and `Parser` returns the map with this one pair on
either line, provided the line has no line break and fits the buffer of the scanner.
The line `KEY=value # comment` parses to `KEY` -> `value`. -/
theorem inline_comment_is_stripped (K V C W : Str) (S : Char)
    (hS : S = '=' ∨ S = ':') (hK : S ∉ K)
    (hcolon : S = ':' → '=' ∉ K ∧ '=' ∉ V ∧ '=' ∉ C)
    (hV : '#' ∉ V) (hW : ∀ w ∈ W, isSpace w = true) :
    lineStep (K ++ S :: (V ++ W ++ '#' :: C)) = lineStep (K ++ S :: V) ∧
    (WellFormedLine K S V →
      lineStep (K ++ S :: (V ++ W ++ '#' :: C)) = .store (TrimSpace K) (TrimSpace V) ∧
      ('\n' ∉ K ++ S :: (V ++ W ++ '#' :: C) →
        fitsScanner (K ++ S :: (V ++ W ++ '#' :: C)) = true →
        Parser (NewReader (K ++ S :: (V ++ W ++ '#' :: C))) =
            .ret (some [(TrimSpace K, TrimSpace V)], none) ∧
          Parser (NewReader (K ++ S :: V)) =
            .ret (some [(TrimSpace K, TrimSpace V)], none))) ∧
    Unmarshal "KEY=value # comment".toList =
      .ret (some [("KEY".toList, "value".toList)], none) := by
  have hWeq : '=' ∉ W := fun h => by
    have := hW _ h
    revert this
    decide
  have hWh : '#' ∉ W := fun h => by
    have := hW _ h
    revert this
    decide
  have hVW : '#' ∉ V ++ W := by
    simp only [List.mem_append, not_or]; exact ⟨hV, hWh⟩
  have hEq1 : S = ':' → '=' ∉ K ∧ '=' ∉ V ++ W ++ '#' :: C := by
    intro e
    obtain ⟨h1, h2, h3⟩ := hcolon e
    refine ⟨h1, ?_⟩
    simp only [List.mem_append, List.mem_cons, not_or]
    exact ⟨⟨h2, hWeq⟩, by decide, h3⟩
  have hEq2 : S = ':' → '=' ∉ K ∧ '=' ∉ V := fun e => ⟨(hcolon e).1, (hcolon e).2.1⟩
  have hsame : lineStep (K ++ S :: (V ++ W ++ '#' :: C)) = lineStep (K ++ S :: V) := by
    rw [lineStep_of_split K _ S hS hK hEq1, lineStep_of_split K V S hS hK hEq2,
      takeWhile_ne_append hVW, takeWhile_ne_of_not_mem hV, trimSpace_append_spaces V hW]
  refine ⟨hsame, ?_, by decide⟩
  intro hwf
  have hstore := lineStep_wellFormed hwf
  refine ⟨hsame.trans hstore, ?_⟩
  intro hnl hfit
  refine ⟨Parser_single_line hnl hfit (hsame.trans hstore) none, ?_⟩
  have hsub : (K ++ S :: V).Sublist (K ++ S :: (V ++ W ++ '#' :: C)) := by
    apply List.Sublist.append_left
    apply List.Sublist.cons₂
    rw [List.append_assoc]
    exact List.sublist_append_left _ _
  exact Parser_single_line (fun h => hnl (hsub.subset h)) (fitsScanner_of_sublist hsub hfit)
    hstore none

theorem inline_comment_is_stripped_witness :
    lineStep ("KEY".toList ++ ':' :: ("value".toList ++ " ".toList ++ '#' :: " note".toList)) =
        lineStep ("KEY".toList ++ ':' :: "value".toList) ∧
    (WellFormedLine "KEY".toList ':' "value".toList →
      lineStep ("KEY".toList ++ ':' :: ("value".toList ++ " ".toList ++ '#' :: " note".toList)) =
          .store (TrimSpace "KEY".toList) (TrimSpace "value".toList) ∧
      ('\n' ∉ "KEY".toList ++ ':' :: ("value".toList ++ " ".toList ++ '#' :: " note".toList) →
        fitsScanner ("KEY".toList ++ ':' ::
          ("value".toList ++ " ".toList ++ '#' :: " note".toList)) = true →
        Parser (NewReader ("KEY".toList ++ ':' ::
            ("value".toList ++ " ".toList ++ '#' :: " note".toList))) =
            .ret (some [(TrimSpace "KEY".toList, TrimSpace "value".toList)], none) ∧
          Parser (NewReader ("KEY".toList ++ ':' :: "value".toList)) =
            .ret (some [(TrimSpace "KEY".toList, TrimSpace "value".toList)], none))) ∧
    Unmarshal "KEY=value # comment".toList =
      .ret (some [("KEY".toList, "value".toList)], none) :=
  inline_comment_is_stripped "KEY".toList "value".toList " note".toList " ".toList ':'
    (by decide) (by decide) (by decide) (by decide) (by decide)

/-- C6.  For every line that has a separator, with the candidate key being the text of
the trimmed line before the separator: a comment line is skipped; otherwise the key that
the loop body of `Parser` validates and records is the candidate key without its six
leading characters and then trimmed when the candidate key begins with `export`, and the
trimmed candidate key otherwise.  `export KEY=value` gives `KEY` -> `value`,
`exportFOO=bar` gives `FOO` -> `bar`, and `Export KEY=v` keeps the key `Export KEY`. -/
theorem export_prefix_rule (text : Str)
    (hsep : '=' ∈ TrimSpace text ∨ ':' ∈ TrimSpace text) :
    lineStep text =
      (if (TrimSpace text).head? = some '#' then .skip
      else if (if "export".toList <+: candKey (TrimSpace text)
            then TrimSpace ((candKey (TrimSpace text)).drop 6)
            else TrimSpace (candKey (TrimSpace text))) = [] ∨
          recVal (TrimSpace text) = [] then .fail "key val aren't valid"
      else .store (if "export".toList <+: candKey (TrimSpace text)
            then TrimSpace ((candKey (TrimSpace text)).drop 6)
            else TrimSpace (candKey (TrimSpace text))) (recVal (TrimSpace text))) ∧
    Unmarshal "export KEY=value".toList =
      .ret (some [("KEY".toList, "value".toList)], none) ∧
    Unmarshal "exportFOO=bar".toList = .ret (some [("FOO".toList, "bar".toList)], none) ∧
    Unmarshal "Export KEY=v".toList =
      .ret (some [("Export KEY".toList, "v".toList)], none) := by
  refine ⟨?_, by decide, by decide, by decide⟩
  have hne : TrimSpace text ≠ [] := by
    rcases hsep with h | h <;> exact List.ne_nil_of_mem h
  have hno : ¬ ('=' ∉ TrimSpace text ∧ ':' ∉ TrimSpace text) := by
    rintro ⟨h1, h2⟩
    rcases hsep with h | h
    · exact h1 h
    · exact h2 h
  have hkey : recKey (TrimSpace text) =
      (if "export".toList <+: candKey (TrimSpace text)
        then TrimSpace ((candKey (TrimSpace text)).drop 6)
        else TrimSpace (candKey (TrimSpace text))) := by
    unfold recKey
    split_ifs <;> rfl
  rw [lineStep_eq_lineSpec]
  unfold lineSpec
  simp only []
  rw [← hkey]
  by_cases hc : (TrimSpace text).head? = some '#'
  · rw [if_pos (Or.inr hc), if_pos hc]
  · rw [if_neg (by rintro (h | h); exacts [hne h, hc h]), if_neg hc, if_neg hno]

theorem export_prefix_rule_witness :
    lineStep "  exportFOO : bar".toList =
      (if (TrimSpace "  exportFOO : bar".toList).head? = some '#' then .skip
      else if (if "export".toList <+: candKey (TrimSpace "  exportFOO : bar".toList)
            then TrimSpace ((candKey (TrimSpace "  exportFOO : bar".toList)).drop 6)
            else TrimSpace (candKey (TrimSpace "  exportFOO : bar".toList))) = [] ∨
          recVal (TrimSpace "  exportFOO : bar".toList) = [] then .fail "key val aren't valid"
      else .store (if "export".toList <+: candKey (TrimSpace "  exportFOO : bar".toList)
            then TrimSpace ((candKey (TrimSpace "  exportFOO : bar".toList)).drop 6)
            else TrimSpace (candKey (TrimSpace "  exportFOO : bar".toList)))
          (recVal (TrimSpace "  exportFOO : bar".toList))) ∧
    Unmarshal "export KEY=value".toList =
      .ret (some [("KEY".toList, "value".toList)], none) ∧
    Unmarshal "exportFOO=bar".toList = .ret (some [("FOO".toList, "bar".toList)], none) ∧
    Unmarshal "Export KEY=v".toList =
      .ret (some [("Export KEY".toList, "v".toList)], none) :=
  export_prefix_rule "  exportFOO : bar".toList (by decide)

/-- C7.  When the trimmed line is `a S b` with `S` the first `=` of the line, or with `S`
the first `:` of a line without `=`, the slice `keyVal` of `Parser` is `[a, b]`: the
candidate key is the text before that separator and the candidate value is all the text
after it.  When the line is not a comment, the loop body validates and records the key
and the value made from `a` and `b`.  `a:b=c` gives the key `a:b` and the value `c`,
and `A=b=c` gives the value `b=c`. -/
theorem split_point (text a b : Str) (S : Char) (hline : TrimSpace text = a ++ S :: b)
    (hS : (S = '=' ∧ '=' ∉ a) ∨ (S = ':' ∧ ':' ∉ a ∧ '=' ∉ a ∧ '=' ∉ b)) :
    splitKeyVal (TrimSpace text) = [a, b] ∧
    ((TrimSpace text).head? ≠ some '#' →
      lineStep text =
        if TrimSpace (if "export".toList <+: a then a.drop 6 else a) = [] ∨
            TrimSpace (b.takeWhile (fun c => c != '#')) = [] then
          .fail "key val aren't valid"
        else .store (TrimSpace (if "export".toList <+: a then a.drop 6 else a))
          (TrimSpace (b.takeWhile (fun c => c != '#')))) ∧
    Unmarshal "a:b=c".toList = .ret (some [("a:b".toList, "c".toList)], none) ∧
    Unmarshal "A=b=c".toList = .ret (some [("A".toList, "b=c".toList)], none) := by
  obtain ⟨_, hck, hcv⟩ := cand_of_split a b S hS
  have hmem : S ∈ a ++ S :: b := by simp
  have hno : ¬ ('=' ∉ TrimSpace text ∧ ':' ∉ TrimSpace text) := by
    rw [hline]
    rintro ⟨h1, h2⟩
    rcases hS with ⟨rfl, _⟩ | ⟨rfl, _⟩
    · exact h1 hmem
    · exact h2 hmem
  refine ⟨?_, ?_, by decide, by decide⟩
  · rw [splitKeyVal_eq hno, hline, hck, hcv]
  · intro hc
    have hne : TrimSpace text ≠ [] := by rw [hline]; simp
    rw [lineStep_eq_lineSpec]
    unfold lineSpec
    simp only []
    rw [if_neg (by rintro (h | h); exacts [hne h, hc h]), if_neg hno]
    unfold recKey recVal
    rw [hline, hck, hcv]

theorem split_point_witness :
    splitKeyVal (TrimSpace " a:b = c:d=e ".toList) = ["a:b ".toList, " c:d=e".toList] ∧
    ((TrimSpace " a:b = c:d=e ".toList).head? ≠ some '#' →
      lineStep " a:b = c:d=e ".toList =
        if TrimSpace (if "export".toList <+: "a:b ".toList then "a:b ".toList.drop 6
              else "a:b ".toList) = [] ∨
            TrimSpace (" c:d=e".toList.takeWhile (fun c => c != '#')) = [] then
          .fail "key val aren't valid"
        else .store (TrimSpace (if "export".toList <+: "a:b ".toList
              then "a:b ".toList.drop 6 else "a:b ".toList))
          (TrimSpace (" c:d=e".toList.takeWhile (fun c => c != '#')))) ∧
    Unmarshal "a:b=c".toList = .ret (some [("a:b".toList, "c".toList)], none) ∧
    Unmarshal "A=b=c".toList = .ret (some [("A".toList, "b=c".toList)], none) :=
  split_point " a:b = c:d=e ".toList "a:b ".toList " c:d=e".toList '='
    (by decide) (Or.inl ⟨rfl, by decide⟩)

/-- C1 (counterexample to the claim as stated).  The line `KEY=a#b` is of the form
`KEY=VALUE` with the key `KEY` and the value `a#b`, both not empty after trimming, and
`Unmarshal` returns the pair `KEY` -> `a`, not the pair `KEY` -> `a#b`: the value is
cut at its first `#`.  Likewise the line `exportFOO=bar` has the key `exportFOO`, and
`Unmarshal` returns the pair `FOO` -> `bar`. -/
theorem value_is_cut_and_key_is_stripped :
    TrimSpace "KEY".toList = "KEY".toList ∧ TrimSpace "a#b".toList = "a#b".toList ∧
      Unmarshal "KEY=a#b\n".toList = .ret (some [("KEY".toList, "a".toList)], none) ∧
      TrimSpace "exportFOO".toList = "exportFOO".toList ∧
      Unmarshal "exportFOO=bar\n".toList = .ret (some [("FOO".toList, "bar".toList)], none) :=
  ⟨by decide, by decide, by decide, by decide, by decide⟩

/-- C1 (amended).  Let the lines of a text (with or without a line break after the last
line) be well-formed lines `K S V` that fit the buffer of the scanner.  Then `Parser`,
and `Unmarshal` on the same text, succeed and return a map in which a key `k` has the
value `v` exactly when (`k`, `v`) is the last of the pairs (trimmed `K`, trimmed `V`)
with the key `k`; when the trimmed keys are pairwise distinct, the map holds exactly
these pairs.  `Unmarshal` of `KEY1=value1`, `KEY2=value2` returns
`KEY1` -> `value1`, `KEY2` -> `value2`. -/
theorem Parser_wellFormed_lines (input : Str) (kvs : List (Str × Char × Str))
    (hlines : splitLines input = kvs.map lineOf ∨ splitLines input = kvs.map lineOf ++ [[]])
    (hwf : ∀ t ∈ kvs, WellFormedLine t.1 t.2.1 t.2.2 ∧ fitsScanner (lineOf t) = true) :
    (∃ m, Parser (NewReader input) = .ret (some m, none) ∧
      Unmarshal input = .ret (some m, none) ∧
      (∀ k v, m.get k = some v ↔
        ∃ pre post, kvs.map pairOf = pre ++ (k, v) :: post ∧ ∀ p ∈ post, p.1 ≠ k) ∧
      (((kvs.map pairOf).map Prod.fst).Nodup →
        ∀ k v, m.get k = some v ↔ (k, v) ∈ kvs.map pairOf)) ∧
    Unmarshal "KEY1=value1\nKEY2=value2\n".toList =
      .ret (some [("KEY1".toList, "value1".toList), ("KEY2".toList, "value2".toList)],
        none) := by
  refine ⟨?_, by decide⟩
  have hstore : ∀ t ∈ kvs, lineStep (lineOf t) = .store (pairOf t).1 (pairOf t).2 :=
    fun t ht => lineStep_wellFormed (hwf t ht).1
  have hfits : ∀ l ∈ kvs.map lineOf, fitsScanner l = true := by
    intro l hl
    obtain ⟨t, ht, rfl⟩ := List.mem_map.mp hl
    exact (hwf t ht).2
  have hparse : Parser (NewReader input) =
      .ret (some (recordAll [] (kvs.map pairOf)), none) := by
    rw [Parser_eq_parseLoop]
    show parseLoop ((splitLines input).takeWhile fitsScanner) [] = _
    rcases hlines with h | h
    · rw [h, List.takeWhile_eq_self_iff.mpr hfits]
      have := parseLoop_stores lineOf pairOf kvs [] [] hstore
      rw [List.append_nil] at this
      rw [this]; rfl
    · have hall : ∀ l ∈ kvs.map lineOf ++ [[]], fitsScanner l = true := by
        intro l hl
        rcases List.mem_append.mp hl with h1 | h1
        · exact hfits l h1
        · rw [List.mem_singleton.mp h1]; decide
      rw [h, List.takeWhile_eq_self_iff.mpr hall,
        parseLoop_stores lineOf pairOf kvs [[]] [] hstore,
        parseLoop_cons_skip lineStep_nil]
      rfl
  refine ⟨_, hparse, hparse, fun k v => get_recordAll_iff _ k v, ?_⟩
  intro hnd k v
  rw [get_recordAll_iff, last_iff_mem_of_nodup hnd]

theorem Parser_wellFormed_lines_witness :
    (∃ m, Parser (NewReader "KEY1 = value1\nKEY2:value2\n".toList) = .ret (some m, none) ∧
      Unmarshal "KEY1 = value1\nKEY2:value2\n".toList = .ret (some m, none) ∧
      (∀ k v, m.get k = some v ↔
        ∃ pre post, [("KEY1 ".toList, '=', " value1".toList),
            ("KEY2".toList, ':', "value2".toList)].map pairOf = pre ++ (k, v) :: post ∧
          ∀ p ∈ post, p.1 ≠ k) ∧
      ((([("KEY1 ".toList, '=', " value1".toList),
            ("KEY2".toList, ':', "value2".toList)].map pairOf).map Prod.fst).Nodup →
        ∀ k v, m.get k = some v ↔
          (k, v) ∈ [("KEY1 ".toList, '=', " value1".toList),
            ("KEY2".toList, ':', "value2".toList)].map pairOf)) ∧
    Unmarshal "KEY1=value1\nKEY2=value2\n".toList =
      .ret (some [("KEY1".toList, "value1".toList), ("KEY2".toList, "value2".toList)],
        none) :=
  Parser_wellFormed_lines "KEY1 = value1\nKEY2:value2\n".toList
    [("KEY1 ".toList, '=', " value1".toList), ("KEY2".toList, ':', "value2".toList)]
    (Or.inr (by decide))
    (by
      intro t ht
      rcases List.mem_cons.mp ht with rfl | ht
      · exact ⟨⟨by decide, by decide, by decide, by decide, by decide, by decide,
          by decide, by decide⟩, by decide⟩
      · rcases List.mem_cons.mp ht with rfl | ht
        · exact ⟨⟨by decide, by decide, by decide, by decide, by decide, by decide,
            by decide, by decide⟩, by decide⟩
        · simp at ht)

/-- C8 (the code departs from the claim).  On the text with the lines `A=1`, then `K=`
followed by 65536 characters `v`, then `B=2`, the second line does not fit the buffer of
the scanner: `Scan` returns false with the error `ErrTooLong`, the loop ends, the error
of the scanner is not consulted, and `Parser` returns without error the map of the first
line only.  On a reader that fails after it has delivered `A=1`, `Parser` returns the map
of what was delivered, without error, too. -/
theorem Parser_returns_map_of_a_prefix :
    Parser (NewReader ("A=1".toList ++ '\n' ::
        (("K=".toList ++ List.replicate 65536 'v') ++ '\n' :: "B=2\n".toList))) =
      .ret (some [("A".toList, "1".toList)], none) ∧
    scanErr (NewReader ("A=1".toList ++ '\n' ::
        (("K=".toList ++ List.replicate 65536 'v') ++ '\n' :: "B=2\n".toList))) =
      some "bufio.Scanner: token too long" ∧
    Parser ⟨"A=1\n".toList, some "unexpected EOF"⟩ =
      .ret (some [("A".toList, "1".toList)], none) ∧
    scanErr ⟨"A=1\n".toList, some "unexpected EOF"⟩ = some "unexpected EOF" := by
  have hnl : '\n' ∉ "K=".toList ++ List.replicate 65536 'v' :=
    not_mem_append_replicate (by decide) (by decide) _
  have hfit : ¬ fitsScanner ("K=".toList ++ List.replicate 65536 'v') = true := by
    rw [not_fits_replicate _ _ (by decide)]; simp
  have hA : '\n' ∉ "A=1".toList := by decide
  refine ⟨?_, ?_, by decide, by decide⟩
  · rw [Parser_eq_parseLoop]
    show parseLoop ((splitLines ("A=1".toList ++ '\n' ::
      (("K=".toList ++ List.replicate 65536 'v') ++ '\n' :: "B=2\n".toList))).takeWhile
        fitsScanner) [] = _
    rw [splitLines_append_newline hA, splitLines_append_newline hnl,
      List.takeWhile_cons_of_pos (by decide), List.takeWhile_cons_of_neg hfit]
    decide
  · show scanErrLoop none ("A=1".toList ++ '\n' ::
      (("K=".toList ++ List.replicate 65536 'v') ++ '\n' :: "B=2\n".toList)) [] = _
    rw [scanErrLoop_append_newline none hA, if_neg (by decide),
      scanErrLoop_append_newline none hnl, if_pos]
    exact long_replicate _ _ (by decide)

/-- C9 (the code departs from the claim).  With the variable `KEY1` set to `old` and the
file `.env` holding the line `KEY1=new`, `Load` returns without error and leaves `KEY1`
set to `new`: `loadFile` calls `os.Setenv` for every pair of the file without looking at
the environment, against the comment of `Load`, which says that it will not override a
variable that already exists. -/
theorem Load_overrides_existing_variable :
    LookupEnv [("KEY1".toList, "old".toList)] "KEY1".toList = some "old".toList ∧
    Load (fun name => if name = ".env".toList then .ok (NewReader "KEY1=new\n".toList)
        else .error "no such file or directory") id []
        [("KEY1".toList, "old".toList)] =
      .ret ([("KEY1".toList, "new".toList)], none) ∧
    LookupEnv [("KEY1".toList, "new".toList)] "KEY1".toList = some "new".toList :=
  ⟨by decide, by decide, by decide⟩

/-- C10 (counterexample to the claim as stated).  `Parser` succeeds on the line
`exportexport=1` with the map `export` -> `1`; written back, the map gives the line
`export=1`, whose key is empty once the leading `export` is removed, and `Parser`
fails on it. -/
theorem roundtrip_fails_on_the_key_export :
    Parser (NewReader "exportexport=1".toList) =
        .ret (some [("export".toList, "1".toList)], none) ∧
      serialize [("export".toList, "1".toList)] = "export=1\n".toList ∧
      Parser (NewReader (serialize [("export".toList, "1".toList)])) =
        .ret (none, some "key val aren't valid") :=
  ⟨by decide, by decide, by decide⟩

/-- C10 (amended).  Let `Parser` succeed on an input with the map `M`, and let no key of
`M` begin with `#` or with `export`.  Writing the pairs of `M`, in any order, as one
line `key=value` each and parsing this text with `Parser` succeeds and gives a map that
is equal to `M`: it has the same value under every key. -/
theorem roundtrip_of_parsed_map (reader : Reader) (M : GoMap)
    (hM : Parser reader = .ret (some M, none))
    (hkeys : ∀ e ∈ M, e.1.head? ≠ some '#' ∧ ¬ "export".toList <+: e.1)
    (L : List (Str × Str)) (hL : L.Perm M) :
    ∃ M', Parser (NewReader (serialize L)) = .ret (some M', none) ∧
      ∀ k, M'.get k = M.get k := by
  obtain ⟨hinv, hnd⟩ := Parser_inv hM
  have hinvL : ∀ e ∈ L, StoredPair e.1 e.2 := fun e he => hinv e (hL.subset he)
  have hndL : (L.map Prod.fst).Nodup := (hL.map Prod.fst).nodup_iff.mpr hnd
  have hstore : ∀ e ∈ L, lineStep ((fun e : Str × Str => e.1 ++ '=' :: e.2) e) =
      .store (id e).1 (id e).2 := by
    intro e he
    have hs := hinvL e he
    have hk := hkeys e (hL.subset he)
    have := lineStep_wellFormed (wellFormed_of_stored hs hk.1 hk.2)
    rw [hs.key_trim, hs.val_trim] at this
    exact this
  have hall : ∀ l ∈ L.map (fun e : Str × Str => e.1 ++ '=' :: e.2) ++ [[]],
      fitsScanner l = true := by
    intro l hl
    rcases List.mem_append.mp hl with h1 | h1
    · obtain ⟨e, he, rfl⟩ := List.mem_map.mp h1
      exact (hinvL e he).fits
    · rw [List.mem_singleton.mp h1]; decide
  refine ⟨recordAll [] L, ?_, ?_⟩
  · rw [Parser_eq_parseLoop]
    show parseLoop ((splitLines (serialize L)).takeWhile fitsScanner) [] = _
    rw [splitLines_serialize L (fun e he => ⟨(hinvL e he).key_no_nl, (hinvL e he).val_no_nl⟩),
      List.takeWhile_eq_self_iff.mpr hall,
      parseLoop_stores (fun e : Str × Str => e.1 ++ '=' :: e.2) id L [[]] [] hstore,
      parseLoop_cons_skip lineStep_nil, List.map_id]
    rfl
  · intro k
    apply Option.ext
    intro v
    simp only [Option.mem_def]
    rw [get_recordAll_iff, last_iff_mem_of_nodup hndL, get_eq_some_iff_mem hnd]
    exact hL.mem_iff

theorem roundtrip_of_parsed_map_witness :
    ∃ M', Parser (NewReader (serialize [("A".toList, "1".toList), ("B".toList, "3".toList)])) =
        .ret (some M', none) ∧
      ∀ k, M'.get k = GoMap.get [("B".toList, "3".toList), ("A".toList, "1".toList)] k :=
  roundtrip_of_parsed_map (NewReader "B=2\n export A : 1 # one\nB=3".toList)
    [("B".toList, "3".toList), ("A".toList, "1".toList)] (by decide)
    (by
      intro e he
      rcases List.mem_cons.mp he with rfl | he
      · exact ⟨by decide, by decide⟩
      · rcases List.mem_cons.mp he with rfl | he
        · exact ⟨by decide, by decide⟩
        · simp at he)
    [("A".toList, "1".toList), ("B".toList, "3".toList)]
    (List.Perm.swap _ _ _)

/-- C16.  For every input whose lines all fit the buffer of the scanner: `Parser` returns
an error exactly when some line of the input is offending (a line that, trimmed, is not
empty, does not begin with `#`, and either holds neither `=` nor `:` or has an empty
recorded key or an empty recorded value); without offending line it returns a map; and
the error is the one of the first offending line, the no-separator error for a line
without separator and the invalid-pair error otherwise. -/
theorem Parser_fails_iff_offending (reader : Reader)
    (hfit : ∀ l ∈ splitLines reader.data, fitsScanner l = true) :
    ((∃ e, Parser reader = .ret (none, some e)) ↔
      ∃ l ∈ splitLines reader.data, offendingLine l) ∧
    ((∀ l ∈ splitLines reader.data, ¬ offendingLine l) →
      ∃ m, Parser reader = .ret (some m, none)) ∧
    (∀ pre l post, splitLines reader.data = pre ++ l :: post →
      (∀ x ∈ pre, ¬ offendingLine x) →
      (noSeparatorLine l →
        Parser reader = .ret (none, some "line is not a key value pair")) ∧
      (invalidPairLine l → Parser reader = .ret (none, some "key val aren't valid"))) := by
  have hall : (splitLines reader.data).takeWhile fitsScanner = splitLines reader.data :=
    List.takeWhile_eq_self_iff.mpr hfit
  rw [Parser_eq_parseLoop, hall]
  refine ⟨⟨?_, ?_⟩, ?_, ?_⟩
  · rintro ⟨e, he⟩
    exact parseLoop_fail_offending _ _ e he
  · rintro ⟨l, hl, hoff⟩
    obtain ⟨pre, post, hsplit⟩ := List.append_of_mem hl
    rw [hsplit]
    rcases hoff with h | h
    · exact (parseLoop_fail_at pre l post [] _ (lineStep_noSeparator h)).1
    · exact (parseLoop_fail_at pre l post [] _ (lineStep_invalidPair h)).1
  · intro h
    exact parseLoop_ok_of_not_offending _ [] h
  · intro pre l post hsplit hpre
    rw [hsplit]
    exact ⟨fun h => (parseLoop_fail_at pre l post [] _ (lineStep_noSeparator h)).2 hpre,
      fun h => (parseLoop_fail_at pre l post [] _ (lineStep_invalidPair h)).2 hpre⟩

theorem Parser_fails_iff_offending_witness :
    ((∃ e, Parser (NewReader "KEY62=value62\nKEY71=\nfoo\n".toList) = .ret (none, some e)) ↔
      ∃ l ∈ splitLines (NewReader "KEY62=value62\nKEY71=\nfoo\n".toList).data,
        offendingLine l) ∧
    ((∀ l ∈ splitLines (NewReader "KEY62=value62\nKEY71=\nfoo\n".toList).data,
        ¬ offendingLine l) →
      ∃ m, Parser (NewReader "KEY62=value62\nKEY71=\nfoo\n".toList) = .ret (some m, none)) ∧
    (∀ pre l post,
      splitLines (NewReader "KEY62=value62\nKEY71=\nfoo\n".toList).data = pre ++ l :: post →
      (∀ x ∈ pre, ¬ offendingLine x) →
      (noSeparatorLine l →
        Parser (NewReader "KEY62=value62\nKEY71=\nfoo\n".toList) =
          .ret (none, some "line is not a key value pair")) ∧
      (invalidPairLine l →
        Parser (NewReader "KEY62=value62\nKEY71=\nfoo\n".toList) =
          .ret (none, some "key val aren't valid"))) :=
  Parser_fails_iff_offending (NewReader "KEY62=value62\nKEY71=\nfoo\n".toList) (by decide)

/-- C17.  Let a line that is not a comment have the trimmed form `a S b`, split at the
separator `S`, with a `#` in `a`, that is before the separator.  Then nothing is cut
from the key: the key that the loop body of `Parser` validates and records is `a`
(without a leading `export`) trimmed, it holds every `#` of `a`, and so it is not
empty; the value is `b` cut at its first `#` and trimmed.  `K#x=v` gives the pair
`K#x` -> `v`, and `K#x=v#c` gives the same pair. -/
theorem hash_before_separator_stays_in_key (text a b : Str) (S : Char)
    (hline : TrimSpace text = a ++ S :: b)
    (hS : (S = '=' ∧ '=' ∉ a) ∨ (S = ':' ∧ ':' ∉ a ∧ '=' ∉ a ∧ '=' ∉ b))
    (hc : (TrimSpace text).head? ≠ some '#') (hhash : '#' ∈ a) :
    lineStep text =
      (if TrimSpace (b.takeWhile (fun c => c != '#')) = [] then .fail "key val aren't valid"
      else .store (TrimSpace (if "export".toList <+: a then a.drop 6 else a))
        (TrimSpace (b.takeWhile (fun c => c != '#')))) ∧
    '#' ∈ TrimSpace (if "export".toList <+: a then a.drop 6 else a) ∧
    (TrimSpace (if "export".toList <+: a then a.drop 6 else a)).count '#' = a.count '#' ∧
    Unmarshal "K#x=v".toList = .ret (some [("K#x".toList, "v".toList)], none) ∧
    Unmarshal "K#x=v#c".toList = .ret (some [("K#x".toList, "v".toList)], none) := by
  have hcount : (TrimSpace (if "export".toList <+: a then a.drop 6 else a)).count '#' =
      a.count '#' := by
    rw [count_trimSpace (by decide)]
    split_ifs with he
    · obtain ⟨t, rfl⟩ := he
      have h6 : "export".toList.length = 6 := by decide
      rw [List.drop_left' h6, List.count_append]
      have : List.count '#' "export".toList = 0 := by decide
      omega
    · rfl
  have hmem : '#' ∈ TrimSpace (if "export".toList <+: a then a.drop 6 else a) := by
    rw [← List.count_pos_iff, hcount, List.count_pos_iff]
    exact hhash
  refine ⟨?_, hmem, hcount, by decide, by decide⟩
  rw [lineStep_of_trimmed_split text a b S hline hS hc]
  have hne : TrimSpace (if "export".toList <+: a then a.drop 6 else a) ≠ [] :=
    List.ne_nil_of_mem hmem
  by_cases hv : TrimSpace (b.takeWhile (fun c => c != '#')) = []
  · rw [if_pos (Or.inr hv), if_pos hv]
  · rw [if_neg (by rintro (h | h); exacts [hne h, hv h]), if_neg hv]

theorem hash_before_separator_stays_in_key_witness :
    lineStep " export K #x : v # c".toList =
      (if TrimSpace (" v # c".toList.takeWhile (fun c => c != '#')) = [] then
        .fail "key val aren't valid"
      else .store (TrimSpace (if "export".toList <+: "export K #x ".toList
          then "export K #x ".toList.drop 6 else "export K #x ".toList))
        (TrimSpace (" v # c".toList.takeWhile (fun c => c != '#')))) ∧
    '#' ∈ TrimSpace (if "export".toList <+: "export K #x ".toList
      then "export K #x ".toList.drop 6 else "export K #x ".toList) ∧
    (TrimSpace (if "export".toList <+: "export K #x ".toList
      then "export K #x ".toList.drop 6 else "export K #x ".toList)).count '#' =
        "export K #x ".toList.count '#' ∧
    Unmarshal "K#x=v".toList = .ret (some [("K#x".toList, "v".toList)], none) ∧
    Unmarshal "K#x=v#c".toList = .ret (some [("K#x".toList, "v".toList)], none) :=
  hash_before_separator_stays_in_key " export K #x : v # c".toList "export K #x ".toList
    " v # c".toList ':' (by decide) (Or.inr ⟨rfl, by decide, by decide, by decide⟩)
    (by decide) (by decide)

/-- C19.  `Parser` returns a map or an error on every input, it never panics.  On a
line with a separator, where the body of the loop indexes and slices: the split result
`keyVal` has exactly two elements; the guard of `key[6:]` holds exactly when the
candidate key begins with `export`, and then the candidate key has at least 6 bytes and
`key[6:]` is the candidate key without its first six characters; when the candidate
value holds a `#`, the index of its first `#` lies within the value and `val[:index]`
is the text before that `#`. -/
theorem Parser_never_indexes_out_of_range (reader : Reader) (text : Str)
    (hsep : '=' ∈ TrimSpace text ∨ ':' ∈ TrimSpace text) :
    ((∃ m, Parser reader = .ret (some m, none)) ∨
      (∃ e, Parser reader = .ret (none, some e))) ∧
    (∀ reason, Parser reader ≠ .panic reason) ∧
    (∀ reason, lineStep text ≠ .panic reason) ∧
    (∃ key val, splitKeyVal (TrimSpace text) = [key, val] ∧
      ((decide (6 ≤ byteLen (TrimSpace text)) &&
          (TrimSpace text).take 6 == "export".toList) = true ↔ "export".toList <+: key) ∧
      ((decide (6 ≤ byteLen (TrimSpace text)) &&
          (TrimSpace text).take 6 == "export".toList) = false ∨
        (6 ≤ byteLen key ∧ sliceFrom key 6 = some (key.drop 6))) ∧
      (ContainsAny val ['#'] = false ∨
        ∃ i, Index val '#' = some i ∧ i ≤ byteLen val ∧
          sliceTo val i = some (val.takeWhile (fun c => c != '#')))) := by
  have htot := Parser_total reader
  have hno : ¬ ('=' ∉ TrimSpace text ∧ ':' ∉ TrimSpace text) := by
    rintro ⟨h1, h2⟩
    rcases hsep with h | h
    · exact h1 h
    · exact h2 h
  refine ⟨htot, ?_, lineStep_ne_panic text, candKey (TrimSpace text),
    candVal (TrimSpace text), splitKeyVal_eq hno, ?_, ?_, ?_⟩
  · intro reason hp
    rcases htot with ⟨m, hm⟩ | ⟨e, he⟩
    · rw [hm] at hp; simp at hp
    · rw [he] at hp; simp at hp
  · rw [exportGuard_iff, export_prefix_candKey]
  · by_cases hg : (decide (6 ≤ byteLen (TrimSpace text)) &&
        (TrimSpace text).take 6 == "export".toList) = true
    · right
      have hk : "export".toList <+: candKey (TrimSpace text) :=
        (export_prefix_candKey _).mpr ((exportGuard_iff _).mp hg)
      refine ⟨?_, sliceFrom_export hk⟩
      have h1 := hk.length_le
      have h2 := length_le_byteLen (candKey (TrimSpace text))
      have h6 : "export".toList.length = 6 := by decide
      omega
    · left
      simpa using hg
  · by_cases hh : '#' ∈ candVal (TrimSpace text)
    · right
      have hb := index_bind_sliceTo hh
      cases hi : Index (candVal (TrimSpace text)) '#' with
      | none => rw [hi] at hb; simp at hb
      | some i =>
        rw [hi] at hb
        exact ⟨i, rfl, index_le_byteLen hi, by simpa using hb⟩
    · left
      rw [Bool.eq_false_iff]
      exact fun hc => hh ((containsAny_singleton _ _).mp hc)

theorem Parser_never_indexes_out_of_range_witness :
    ((∃ m, Parser (NewReader "export A=b#c\n=".toList) = .ret (some m, none)) ∨
      (∃ e, Parser (NewReader "export A=b#c\n=".toList) = .ret (none, some e))) ∧
    (∀ reason, Parser (NewReader "export A=b#c\n=".toList) ≠ .panic reason) ∧
    (∀ reason, lineStep "export A=b#c".toList ≠ .panic reason) ∧
    (∃ key val, splitKeyVal (TrimSpace "export A=b#c".toList) = [key, val] ∧
      ((decide (6 ≤ byteLen (TrimSpace "export A=b#c".toList)) &&
          (TrimSpace "export A=b#c".toList).take 6 == "export".toList) = true ↔
        "export".toList <+: key) ∧
      ((decide (6 ≤ byteLen (TrimSpace "export A=b#c".toList)) &&
          (TrimSpace "export A=b#c".toList).take 6 == "export".toList) = false ∨
        (6 ≤ byteLen key ∧ sliceFrom key 6 = some (key.drop 6))) ∧
      (ContainsAny val ['#'] = false ∨
        ∃ i, Index val '#' = some i ∧ i ≤ byteLen val ∧
          sliceTo val i = some (val.takeWhile (fun c => c != '#')))) :=
  Parser_never_indexes_out_of_range (NewReader "export A=b#c\n=".toList)
    "export A=b#c".toList (by decide)

/-- C20.  For every input on which `Parser` succeeds, every pair of the returned map has
a key and a value that are not empty and have no white space at the beginning or at the
end (they are their own trimmed form); the value holds no `#`, the key holds no `=`,
and neither holds a line break. -/
theorem Parser_output_invariant (reader : Reader) (M : GoMap)
    (hM : Parser reader = .ret (some M, none)) (k v : Str) (hkv : (k, v) ∈ M) :
    k ≠ [] ∧ v ≠ [] ∧ TrimSpace k = k ∧ TrimSpace v = v ∧
    (∀ c, k.head? = some c → isSpace c = false) ∧
    (∀ c, k.getLast? = some c → isSpace c = false) ∧
    (∀ c, v.head? = some c → isSpace c = false) ∧
    (∀ c, v.getLast? = some c → isSpace c = false) ∧
    '#' ∉ v ∧ '=' ∉ k ∧ '\n' ∉ k ∧ '\n' ∉ v := by
  have h : StoredPair k v := (Parser_inv hM).1 (k, v) hkv
  refine ⟨h.key_ne, h.val_ne, h.key_trim, h.val_trim, ?_, ?_, ?_, ?_, h.val_no_hash,
    h.key_no_eq, h.key_no_nl, h.val_no_nl⟩
  · intro c hc; rw [← h.key_trim] at hc; exact trimSpace_head_not_space hc
  · intro c hc; rw [← h.key_trim] at hc; exact trimSpace_last_not_space hc
  · intro c hc; rw [← h.val_trim] at hc; exact trimSpace_head_not_space hc
  · intro c hc; rw [← h.val_trim] at hc; exact trimSpace_last_not_space hc

theorem Parser_output_invariant_witness :
    "A : b".toList ≠ [] ∧ "c d".toList ≠ [] ∧ TrimSpace "A : b".toList = "A : b".toList ∧
    TrimSpace "c d".toList = "c d".toList ∧
    (∀ c, "A : b".toList.head? = some c → isSpace c = false) ∧
    (∀ c, "A : b".toList.getLast? = some c → isSpace c = false) ∧
    (∀ c, "c d".toList.head? = some c → isSpace c = false) ∧
    (∀ c, "c d".toList.getLast? = some c → isSpace c = false) ∧
    '#' ∉ "c d".toList ∧ '=' ∉ "A : b".toList ∧ '\n' ∉ "A : b".toList ∧
    '\n' ∉ "c d".toList :=
  Parser_output_invariant (NewReader "B=2\n  export A : b = c d # one \r\nB=3".toList)
    [("B".toList, "3".toList), ("A : b".toList, "c d".toList)] (by decide)
    "A : b".toList "c d".toList (by decide)

/-- C12 (counterexample to the claim as stated).  With `K` the key `K`, the separator
`:`, the value `a=b` and one space after the key, the line `K :a=b` gives the pair
`K :a` -> `b` and the line `K:a=b` gives the pair `K:a` -> `b`: the line is split at
the `=` of the value, and the white space before the `:` is inside the key. -/
theorem whitespace_inside_key_is_kept :
    Unmarshal "K :a=b".toList = .ret (some [("K :a".toList, "b".toList)], none) ∧
      Unmarshal "K:a=b".toList = .ret (some [("K:a".toList, "b".toList)], none) :=
  ⟨by decide, by decide⟩

/-- C12 (amended).  Let the line `K S V` be split at its separator `S`: `K` does not
hold `S`, and for the separator `:` neither `K` nor `V` holds `=`.  For all white
space `w₁`, `w₂`, `w₃`, `w₄` the loop body of `Parser` does the same with the line
`w₁ K w₂ S w₃ V w₄` as with the line `K S V`, and `Parser` gives the same result on the
two one-line texts, provided the longer line has no line break and fits the buffer of
the scanner. -/
theorem whitespace_is_insignificant (K V w₁ w₂ w₃ w₄ : Str) (S : Char)
    (hS : S = '=' ∨ S = ':') (hK : S ∉ K) (hEq : S = ':' → '=' ∉ K ∧ '=' ∉ V)
    (h1 : ∀ a ∈ w₁, isSpace a = true) (h2 : ∀ a ∈ w₂, isSpace a = true)
    (h3 : ∀ a ∈ w₃, isSpace a = true) (h4 : ∀ a ∈ w₄, isSpace a = true) :
    lineStep (w₁ ++ K ++ w₂ ++ S :: (w₃ ++ V ++ w₄)) = lineStep (K ++ S :: V) ∧
    ('\n' ∉ w₁ ++ K ++ w₂ ++ S :: (w₃ ++ V ++ w₄) →
      fitsScanner (w₁ ++ K ++ w₂ ++ S :: (w₃ ++ V ++ w₄)) = true →
      Parser (NewReader (w₁ ++ K ++ w₂ ++ S :: (w₃ ++ V ++ w₄))) =
        Parser (NewReader (K ++ S :: V))) := by
  have hstep := lineStep_padded K V w₁ w₂ w₃ w₄ S hS hK hEq h1 h2 h3 h4
  refine ⟨hstep, ?_⟩
  intro hnl hfit
  have hsub : (K ++ S :: V).Sublist (w₁ ++ K ++ w₂ ++ S :: (w₃ ++ V ++ w₄)) := by
    apply List.Sublist.append
    · exact ((List.sublist_append_right w₁ K).trans (List.sublist_append_left _ w₂))
    · apply List.Sublist.cons₂
      exact ((List.sublist_append_right w₃ V).trans (List.sublist_append_left _ w₄))
  have hnl2 : '\n' ∉ K ++ S :: V := fun h => hnl (hsub.subset h)
  have hfit2 := fitsScanner_of_sublist hsub hfit
  rw [Parser_eq_parseLoop, Parser_eq_parseLoop]
  simp only [NewReader]
  rw [splitLines_of_not_mem hnl, splitLines_of_not_mem hnl2,
    List.takeWhile_cons_of_pos hfit, List.takeWhile_cons_of_pos hfit2]
  exact parseLoop_cons_congr hstep _ _

theorem whitespace_is_insignificant_witness :
    lineStep (" \t".toList ++ "export KEY".toList ++ " ".toList ++
        ':' :: ("  ".toList ++ "a b#c".toList ++ "\t".toList)) =
      lineStep ("export KEY".toList ++ ':' :: "a b#c".toList) ∧
    ('\n' ∉ " \t".toList ++ "export KEY".toList ++ " ".toList ++
        ':' :: ("  ".toList ++ "a b#c".toList ++ "\t".toList) →
      fitsScanner (" \t".toList ++ "export KEY".toList ++ " ".toList ++
        ':' :: ("  ".toList ++ "a b#c".toList ++ "\t".toList)) = true →
      Parser (NewReader (" \t".toList ++ "export KEY".toList ++ " ".toList ++
        ':' :: ("  ".toList ++ "a b#c".toList ++ "\t".toList))) =
        Parser (NewReader ("export KEY".toList ++ ':' :: "a b#c".toList))) :=
  whitespace_is_insignificant "export KEY".toList "a b#c".toList " \t".toList " ".toList
    "  ".toList "\t".toList ':' (by decide) (by decide) (by decide) (by decide) (by decide)
    (by decide) (by decide)

/-- C13.  `Load` loads the files of its effective file list one after the other, in
order: the list is `.env` when no filename is given (so `Load()` is `Load(".env")`) and
the given files otherwise.  Assuming that `os.Setenv` accepts every pair of the files:
`Load` returns nil exactly when every file opens and parses, and then every variable
has the value given by the last file of the list that holds it, and its value of before
the call when no file holds it; when a file fails to open or to parse and no earlier
file does, `Load` returns the error of this file with the pairs of the earlier files
applied in the same way, whatever the later files are and whatever the file system
holds under other names.  With the file `a` holding `A=1`, `B=2`, the file `c` holding
`B=3`, `C=4` and the file `b` holding a line without separator: `Load(a, c)` leaves
`B=3`, `Load(c, a)` leaves `B=2`, and `Load(a, b, c)` returns the error of `b` with the
pairs of `a` applied and no pair of `c`. -/
theorem Load_is_sequential (fs : FileSystem) (order : GoMap → List (Str × Str))
    (horder : ∀ m, (order m).Perm m) (names : List Str) (env : Env)
    (hSet : ∀ g ∈ effectiveFiles names, ∀ file m, fs g = .ok file →
      Parser file = .ret (some m, none) → ∀ e ∈ m, ∀ env', (Setenv env' e.1 e.2).2 = none) :
    Load fs order [] env = Load fs order [".env".toList] env ∧
    ((∃ env', Load fs order names env = .ret (env', none)) ↔
      ∀ g ∈ effectiveFiles names, fileError fs g = none) ∧
    ((∀ g ∈ effectiveFiles names, fileError fs g = none) →
      ∃ env', Load fs order names env = .ret (env', none) ∧
        ∀ k, LookupEnv env' k =
          valueAfter env ((effectiveFiles names).map (parsedMap fs)) k) ∧
    (∀ pre f post e, effectiveFiles names = pre ++ f :: post →
      (∀ g ∈ pre, fileError fs g = none) → fileError fs f = some e →
      ∃ env', Load fs order names env = .ret (env', some e) ∧
        (∀ k, LookupEnv env' k = valueAfter env (pre.map (parsedMap fs)) k) ∧
        ∀ (fs' : FileSystem) (post' : List Str), (∀ g ∈ pre ++ [f], fs' g = fs g) →
          Load fs' order (pre ++ f :: post') env = .ret (env', some e)) ∧
    Load demoFS id ["a".toList, "c".toList] [("C".toList, "0".toList)] =
      .ret ([("C".toList, "4".toList), ("A".toList, "1".toList), ("B".toList, "3".toList)],
        none) ∧
    Load demoFS id ["c".toList, "a".toList] [("C".toList, "0".toList)] =
      .ret ([("C".toList, "4".toList), ("B".toList, "2".toList), ("A".toList, "1".toList)],
        none) ∧
    Load demoFS id ["a".toList, "b".toList, "c".toList] [("C".toList, "0".toList)] =
      .ret ([("C".toList, "0".toList), ("A".toList, "1".toList), ("B".toList, "2".toList)],
        some "line is not a key value pair") := by
  refine ⟨?_, ⟨?_, ?_⟩, ?_, ?_, by decide, by decide, by decide⟩
  · rw [Load_eq_loadFiles, Load_eq_loadFiles]
    rfl
  · rintro ⟨env', h⟩
    rw [Load_eq_loadFiles] at h
    exact loadFiles_ok_fileError fs order _ env env' h
  · intro h
    rw [Load_eq_loadFiles]
    exact loadFiles_ok_of fs order horder _ env h hSet
  · intro h
    rw [Load_eq_loadFiles]
    exact loadFiles_ok_value fs order horder _ env h hSet
  · intro pre f post e hsplit hpre hf
    have hSetPre : ∀ g ∈ pre, ∀ file m, fs g = .ok file →
        Parser file = .ret (some m, none) → ∀ e ∈ m, ∀ env', (Setenv env' e.1 e.2).2 = none :=
      fun g hg => hSet g (by rw [hsplit]; simp [hg])
    obtain ⟨envPre, hload, hval⟩ := loadFiles_ok_value fs order horder pre env hpre hSetPre
    refine ⟨envPre, ?_, hval, ?_⟩
    · rw [Load_eq_loadFiles, hsplit]
      exact loadFiles_fail_at fs order pre f post env envPre e hload hf
    · intro fs' post' hagree
      have hne : pre ++ f :: post' ≠ [] := by simp
      rw [Load_eq_loadFiles, effectiveFiles_of_ne_nil hne]
      have hpre' : loadFiles fs' order pre env = .ret (envPre, none) := by
        rw [loadFiles_congr order pre env (fun g hg => hagree g (by simp [hg]))]
        exact hload
      have hf' : fileError fs' f = some e := by
        rw [fileError_congr (hagree f (by simp))]
        exact hf
      exact loadFiles_fail_at fs' order pre f post' env envPre e hpre' hf'

theorem Load_is_sequential_witness :
    Load demoFS id [] [] = Load demoFS id [".env".toList] [] ∧
    ((∃ env', Load demoFS id ["a".toList, "b".toList, "a".toList] [] = .ret (env', none)) ↔
      ∀ g ∈ effectiveFiles ["a".toList, "b".toList, "a".toList], fileError demoFS g = none) ∧
    ((∀ g ∈ effectiveFiles ["a".toList, "b".toList, "a".toList], fileError demoFS g = none) →
      ∃ env', Load demoFS id ["a".toList, "b".toList, "a".toList] [] = .ret (env', none) ∧
        ∀ k, LookupEnv env' k =
          valueAfter [] ((effectiveFiles ["a".toList, "b".toList, "a".toList]).map
            (parsedMap demoFS)) k) ∧
    (∀ pre f post e,
      effectiveFiles ["a".toList, "b".toList, "a".toList] = pre ++ f :: post →
      (∀ g ∈ pre, fileError demoFS g = none) → fileError demoFS f = some e →
      ∃ env', Load demoFS id ["a".toList, "b".toList, "a".toList] [] = .ret (env', some e) ∧
        (∀ k, LookupEnv env' k = valueAfter [] (pre.map (parsedMap demoFS)) k) ∧
        ∀ (fs' : FileSystem) (post' : List Str), (∀ g ∈ pre ++ [f], fs' g = demoFS g) →
          Load fs' id (pre ++ f :: post') [] = .ret (env', some e)) ∧
    Load demoFS id ["a".toList, "c".toList] [("C".toList, "0".toList)] =
      .ret ([("C".toList, "4".toList), ("A".toList, "1".toList), ("B".toList, "3".toList)],
        none) ∧
    Load demoFS id ["c".toList, "a".toList] [("C".toList, "0".toList)] =
      .ret ([("C".toList, "4".toList), ("B".toList, "2".toList), ("A".toList, "1".toList)],
        none) ∧
    Load demoFS id ["a".toList, "b".toList, "c".toList] [("C".toList, "0".toList)] =
      .ret ([("C".toList, "0".toList), ("A".toList, "1".toList), ("B".toList, "2".toList)],
        some "line is not a key value pair") :=
  Load_is_sequential demoFS id (fun m => List.Perm.refl m)
    ["a".toList, "b".toList, "a".toList] []
    (by
      intro g hg file m hfs hP e he env'
      have hg' : g = "a".toList ∨ g = "b".toList := by
        have : effectiveFiles ["a".toList, "b".toList, "a".toList] =
            ["a".toList, "b".toList, "a".toList] := rfl
        rw [this] at hg
        simp only [List.mem_cons, List.mem_singleton, List.not_mem_nil, or_false] at hg
        rcases hg with h | h | h
        · exact Or.inl h
        · exact Or.inr h
        · exact Or.inl h
      rcases hg' with rfl | rfl
      · have hfile : demoFS "a".toList = .ok (NewReader "A=1\nB=2\n".toList) := rfl
        rw [hfile] at hfs
        have hfile' : file = NewReader "A=1\nB=2\n".toList := by
          injection hfs with h; exact h.symm
        have hp : Parser (NewReader "A=1\nB=2\n".toList) =
            .ret (some [("A".toList, "1".toList), ("B".toList, "2".toList)], none) := by
          decide
        rw [hfile', hp] at hP
        have hm : m = [("A".toList, "1".toList), ("B".toList, "2".toList)] := by
          injection hP with h
          injection h with h1 _
          injection h1 with h2
          exact h2.symm
        rw [hm] at he
        rw [Setenv_snd_indep env' []]
        rcases List.mem_cons.mp he with rfl | he
        · decide
        · rcases List.mem_cons.mp he with rfl | he
          · decide
          · simp at he
      · have hfile : demoFS "b".toList = .ok (NewReader "bad line".toList) := rfl
        rw [hfile] at hfs
        have hfile' : file = NewReader "bad line".toList := by
          injection hfs with h; exact h.symm
        have hp : Parser (NewReader "bad line".toList) =
            .ret (none, some "line is not a key value pair") := by
          decide
        rw [hfile', hp] at hP
        injection hP with h
        injection h with h1 _
        injection h1)

/-- C14 (counterexample to the claim as stated).  The file `nul` holds the lines `A=1`
and `B=` followed by a NUL byte, a value that `os.Setenv` rejects.  When the first call
of `Load` visits the pair of `B` first, it fails and sets nothing; when the second call
visits the pair of `A` first, it sets `A` before it fails: the second call changes a
variable.  The iteration order of a Go map is not fixed from one call to the next. -/
theorem second_Load_sets_a_variable :
    Load demoFS List.reverse ["nul".toList] [] = .ret ([], some "setenv: invalid argument") ∧
      Load demoFS id ["nul".toList] [] =
        .ret ([("A".toList, "1".toList)], some "setenv: invalid argument") :=
  ⟨by decide, by decide⟩

/-- C14 (amended).  Assume that `os.Setenv` accepts every pair of the file.  For every
initial environment, and whatever the orders in which the two calls visit the pairs, a
second call of `Load` on the same file returns the same result as the first call and
leaves the environment as the first call left it. -/
theorem Load_twice_same_environment (fs : FileSystem)
    (order₁ order₂ : GoMap → List (Str × Str))
    (h1 : ∀ m, (order₁ m).Perm m) (h2 : ∀ m, (order₂ m).Perm m) (f : Str) (env : Env)
    (hSet : ∀ file m, fs f = .ok file → Parser file = .ret (some m, none) →
      ∀ e ∈ m, ∀ env', (Setenv env' e.1 e.2).2 = none) :
    ∃ env₁ r, Load fs order₁ [f] env = .ret (env₁, r) ∧
      Load fs order₂ [f] env₁ = .ret (env₁, r) := by
  have hL : ∀ (order : GoMap → List (Str × Str)) (env' : Env),
      Load fs order [f] env' = loadFile fs order f env' := by
    intro order env'
    rw [Load_eq_loadFiles, effectiveFiles_of_ne_nil (by simp), loadFiles_singleton]
  cases hfe : fileError fs f with
  | some e =>
    refine ⟨env, some e, ?_, ?_⟩
    · rw [hL]; exact loadFile_of_fileError order₁ env hfe
    · rw [hL]; exact loadFile_of_fileError order₂ env hfe
  | none =>
    obtain ⟨file, m, hfs, hP, hload₁⟩ := loadFile_of_no_fileError order₁ env hfe
    have hnd : (m.map Prod.fst).Nodup := (Parser_inv hP).2
    have hnd₁ : ((order₁ m).map Prod.fst).Nodup := ((h1 m).map Prod.fst).nodup_iff.mpr hnd
    have hs₁ : setAll (order₁ m) env = (recordAll env (order₁ m), none) :=
      setAll_ok _ env (fun e he env' => hSet file m hfs hP e ((h1 m).subset he) env')
    refine ⟨recordAll env (order₁ m), none, ?_, ?_⟩
    · rw [hL, hload₁, hs₁]
    · obtain ⟨file', m', hfs', hP', hload₂⟩ :=
        loadFile_of_no_fileError order₂ (recordAll env (order₁ m)) hfe
      have hfile : file' = file := by
        rw [hfs] at hfs'
        injection hfs' with h; exact h.symm
      subst hfile
      have hm : m' = m := by
        rw [hP] at hP'
        injection hP' with h
        injection h with h1' _
        injection h1' with h2'
        exact h2'.symm
      subst hm
      have hs₂ : setAll (order₂ m') (recordAll env (order₁ m')) =
          (recordAll (recordAll env (order₁ m')) (order₂ m'), none) :=
        setAll_ok _ _ (fun e he env' => hSet file' m' hfs hP e ((h2 m').subset he) env')
      have hfix : recordAll (recordAll env (order₁ m')) (order₂ m') =
          recordAll env (order₁ m') := by
        apply recordAll_eq_self
        intro e he
        have he₁ : (e.1, e.2) ∈ order₁ m' := (h1 m').mem_iff.mpr ((h2 m').subset he)
        exact get_recordAll_of_mem env (order₁ m') hnd₁ he₁
      rw [hL, hload₂, hs₂, hfix]

theorem Load_twice_same_environment_witness :
    ∃ env₁ r, Load demoFS id ["a".toList] [("B".toList, "0".toList)] = .ret (env₁, r) ∧
      Load demoFS List.reverse ["a".toList] env₁ = .ret (env₁, r) :=
  Load_twice_same_environment demoFS id List.reverse (fun m => List.Perm.refl m)
    (fun m => List.reverse_perm m) "a".toList [("B".toList, "0".toList)]
    (by
      intro file m hfs hP e he env'
      have hfile : demoFS "a".toList = .ok (NewReader "A=1\nB=2\n".toList) := rfl
      rw [hfile] at hfs
      have hfile' : file = NewReader "A=1\nB=2\n".toList := by
        injection hfs with h; exact h.symm
      have hp : Parser (NewReader "A=1\nB=2\n".toList) =
          .ret (some [("A".toList, "1".toList), ("B".toList, "2".toList)], none) := by
        decide
      rw [hfile', hp] at hP
      have hm : m = [("A".toList, "1".toList), ("B".toList, "2".toList)] := by
        injection hP with h
        injection h with h1 _
        injection h1 with h2
        exact h2.symm
      rw [hm] at he
      rw [Setenv_snd_indep env' []]
      rcases List.mem_cons.mp he with rfl | he
      · decide
      · rcases List.mem_cons.mp he with rfl | he
        · decide
        · simp at he)

/-- C15 (counterexample to the claim as stated).  `Load` of the files `a` and `b`, where
`a` parses and `b` holds a line without separator, returns the error of `b` and leaves
the pairs of `a` set in the environment, which was empty before the call. -/
theorem Load_error_after_earlier_file_was_applied :
    fileError demoFS "b".toList = some "line is not a key value pair" ∧
      Load demoFS id ["a".toList, "b".toList] [] =
        .ret ([("A".toList, "1".toList), ("B".toList, "2".toList)],
          some "line is not a key value pair") :=
  ⟨by decide, by decide⟩

/-- C15 (amended).  When the files before `f` load without error and `f` fails to open
or to parse, `Load` returns the error of `f`, and the environment after the call is the
environment left by the files before `f`: their pairs stay set, and no pair of `f` or
of a later file is set.  When `f` is the first or the only file, the environment after
the call equals the environment before the call. -/
theorem Load_error_keeps_earlier_files (fs : FileSystem)
    (order : GoMap → List (Str × Str)) (pre : List Str) (f : Str) (post : List Str)
    (env envPre : Env) (e : String)
    (hpre : loadFiles fs order pre env = .ret (envPre, none))
    (hf : fileError fs f = some e) :
    Load fs order (pre ++ f :: post) env = .ret (envPre, some e) ∧
    Load fs order (f :: post) env = .ret (env, some e) ∧
    Load fs order [f] env = .ret (env, some e) := by
  refine ⟨?_, ?_, ?_⟩
  · rw [Load_eq_loadFiles, effectiveFiles_of_ne_nil (by simp)]
    exact loadFiles_fail_at fs order pre f post env envPre e hpre hf
  · rw [Load_eq_loadFiles, effectiveFiles_of_ne_nil (by simp)]
    exact loadFiles_fail_at fs order [] f post env env e rfl hf
  · rw [Load_eq_loadFiles, effectiveFiles_of_ne_nil (by simp)]
    exact loadFiles_fail_at fs order [] f [] env env e rfl hf

theorem Load_error_keeps_earlier_files_witness :
    Load demoFS id (["a".toList] ++ "b".toList :: ["a".toList]) [("C".toList, "3".toList)] =
      .ret ([("C".toList, "3".toList), ("A".toList, "1".toList), ("B".toList, "2".toList)],
        some "line is not a key value pair") ∧
    Load demoFS id ("b".toList :: ["a".toList]) [("C".toList, "3".toList)] =
      .ret ([("C".toList, "3".toList)], some "line is not a key value pair") ∧
    Load demoFS id ["b".toList] [("C".toList, "3".toList)] =
      .ret ([("C".toList, "3".toList)], some "line is not a key value pair") :=
  Load_error_keeps_earlier_files demoFS id ["a".toList] "b".toList ["a".toList]
    [("C".toList, "3".toList)]
    [("C".toList, "3".toList), ("A".toList, "1".toList), ("B".toList, "2".toList)]
    "line is not a key value pair" (by decide) (by decide)

/-- C11 (the code departs from the claim).  On the text with the lines `A=1`, then `K=`
followed by 65536 characters `v`, then `A=2`, the last line whose recorded key is `A`
gives the value `2`, and `Parser` succeeds with the map `A` -> `1`: the second line does
not fit the buffer of the scanner, `Scan` returns false, `scanner.Err()` is not
consulted, and the lines after it are never read. -/
theorem long_line_hides_the_last_write :
    lineStep "A=2".toList = .store "A".toList "2".toList ∧
      Parser (NewReader ("A=1".toList ++ '\n' ::
          (("K=".toList ++ List.replicate 65536 'v') ++ '\n' :: "A=2\n".toList))) =
        .ret (some [("A".toList, "1".toList)], none) := by
  have hnl : '\n' ∉ "K=".toList ++ List.replicate 65536 'v' :=
    not_mem_append_replicate (by decide) (by decide) _
  have hfit : ¬ fitsScanner ("K=".toList ++ List.replicate 65536 'v') = true := by
    rw [not_fits_replicate _ _ (by decide)]; simp
  have hA : '\n' ∉ "A=1".toList := by decide
  refine ⟨by decide, ?_⟩
  rw [Parser_eq_parseLoop]
  simp only [NewReader]
  rw [splitLines_append_newline hA, splitLines_append_newline hnl,
    List.takeWhile_cons_of_pos (by decide), List.takeWhile_cons_of_neg hfit]
  decide

/-- C18 (the code departs from the claim).  `Parser` succeeds on the text `a` with the
lines `A=1` and `K=` followed by 65536 characters `v`, with the map `A` -> `1`, and on
the text `b` with the line `B=2`, with the map `B` -> `2`.  On `a`, a line break and
`b`, `Parser` returns the map `A` -> `1` again, without the key `B`: the long line of
`a` does not fit the buffer of the scanner, `Scan` returns false, `scanner.Err()` is
not consulted, and the lines of `b` are never read. -/
theorem long_line_breaks_concatenation :
    Parser (NewReader ("A=1".toList ++ '\n' :: ("K=".toList ++ List.replicate 65536 'v'))) =
      .ret (some [("A".toList, "1".toList)], none) ∧
    Parser (NewReader "B=2".toList) = .ret (some [("B".toList, "2".toList)], none) ∧
    Parser (NewReader (("A=1".toList ++ '\n' :: ("K=".toList ++ List.replicate 65536 'v')) ++
        '\n' :: "B=2".toList)) =
      .ret (some [("A".toList, "1".toList)], none) := by
  have hnl : '\n' ∉ "K=".toList ++ List.replicate 65536 'v' :=
    not_mem_append_replicate (by decide) (by decide) _
  have hfit : ¬ fitsScanner ("K=".toList ++ List.replicate 65536 'v') = true := by
    rw [not_fits_replicate _ _ (by decide)]; simp
  have hA : '\n' ∉ "A=1".toList := by decide
  refine ⟨?_, by decide, ?_⟩
  · rw [Parser_eq_parseLoop]
    simp only [NewReader]
    rw [splitLines_append_newline hA, splitLines_of_not_mem hnl,
      List.takeWhile_cons_of_pos (by decide), List.takeWhile_cons_of_neg hfit]
    decide
  · rw [Parser_eq_parseLoop]
    simp only [NewReader]
    rw [splitLines_append, splitLines_append_newline hA, splitLines_of_not_mem hnl,
      List.cons_append, List.takeWhile_cons_of_pos (by decide), List.cons_append,
      List.takeWhile_cons_of_neg hfit]
    decide

end Dotenv
